import Mathlib

/-!
# tga.c : text bitmap to TGA conversion

A shallow embedding of `src/tga.c` and the properties of its conversion
pipeline (`width`, `height`, `header`, `write_pixel`, `binary2tga`).

Modelling conventions

* A byte is a `Nat`; the named bytes are `LF = 10`, `CR = 13`, `'0' = 48`,
  `'1' = 49`, NUL `= 0`.
* A `FILE` opened for reading is its content together with the read position.
  `fseek`, `calloc` and `fwrite` are taken to succeed, so the `die` calls of
  `reset`, `allocate_or_die` and `fwrite_or_die` are not reachable in the model.
* The output stream is the list of bytes written so far.
* `die` and a failed `assert` both end the process; they are the constructors
  of `Error`.  A function that writes returns an `Outcome`, which keeps the
  bytes written up to the point of failure.
* C integer types are `Nat` with an explicit `%` at every increment or
  conversion that can wrap.
* The content of a stream is the sequence of bytes the C library hands to the
  program, so no end-of-line translation happens between the two.
-/

namespace Tga

/-! ## Constants -/

/-- Pixel channel value `ON` (0xff). -/
def ON : Nat := 0xff
/-- Pixel channel value `OFF` (0x00). -/
def OFF : Nat := 0x00
/-- Character `'1'`. -/
def ON_CHAR : Nat := 49
/-- Character `'0'`. -/
def OFF_CHAR : Nat := 48
/-- Line feed, the C character `'\n'`. -/
def LF : Nat := 10
/-- Carriage return, the C character `'\r'`. -/
def CR : Nat := 13
/-- Largest value of a `uint16_t`. -/
def UINT16_MAX : Nat := 65535

/-! ## Failures and results -/

/-- The ways the program terminates abnormally. -/
inductive Error where
  /-- Failed `assert(w < UINT16_MAX)` in `width`. -/
  | assert_width
  /-- Call `die("invalid line width: %u/%u/%s", lw, w, line)` in `height`. -/
  | invalid_line_width (lw w : Nat) (line : List Nat)
  /-- Failed `assert(h < UINT16_MAX)` in `height`. -/
  | assert_height
  /-- Call `die("invalid pixel value: %c/%x", c, c)` in `write_pixel`. -/
  | invalid_pixel_value (c : Nat)
  /-- Failed `assert(w == line_width(line))` in `binary2tga`. -/
  | assert_line_width
  /-- Failed `assert(lc == h)` in `binary2tga`. -/
  | assert_lc
deriving DecidableEq, Repr

/-- Result of a function that writes to the output stream: either it returns
`val` having left `out` in the stream, or the process ended with `e` when the
stream held `out`. -/
inductive Outcome (α : Type) where
  | ok (val : α) (out : List Nat)
  | die (e : Error) (out : List Nat)
deriving DecidableEq, Repr

/-! ## The input stream -/

/-- Input stream: the bytes of the file and the read position. -/
structure FILE where
  content : List Nat
  pos : Nat
deriving DecidableEq, Repr

/-- Bytes of the stream that have not been read yet. -/
def unread (f : FILE) : List Nat := f.content.drop f.pos

/-- Function `reset`: `fseek(f, 0, SEEK_SET)`. -/
def reset (f : FILE) : FILE := { f with pos := 0 }

/-- Library call `fgetc`: the next byte, or `none` for `EOF`. -/
def fgetc (f : FILE) : Option Nat × FILE :=
  match unread f with
  | [] => (none, f)
  | c :: _ => (some c, { f with pos := f.pos + 1 })

/-- Bytes one `fgets` call stores: at most `k` bytes, stopping after a line
feed or at the end of the input. -/
def read_line : Nat → List Nat → List Nat
  | 0, _ => []
  | _ + 1, [] => []
  | k + 1, c :: rest => if c = LF then [c] else c :: read_line k rest

/-- Library call `fgets(line, n, f)` for `n ≥ 2`: `none` (NULL) when no byte is
left, otherwise the bytes stored in `line` before the terminating NUL. -/
def fgets (n : Nat) (f : FILE) : Option (List Nat) × FILE :=
  let s := read_line (n - 1) (unread f)
  if s = [] then (none, f) else (some s, { f with pos := f.pos + s.length })

/-- Library call `strlen` on a buffer whose stored bytes are `s` and which is
NUL-terminated after them. -/
def strlen : List Nat → Nat
  | [] => 0
  | c :: s => if c = 0 then 0 else strlen s + 1

/-- The C string held by a buffer: the bytes before the first NUL, as `%s`
prints them. -/
def c_string (s : List Nat) : List Nat := s.take (strlen s)

/-! ## The functions of tga.c -/

/-- Function `header`: the 18 byte TGA header for a 16-bit width and height. -/
def header (width height : Nat) : List Nat :=
  [ 0,          -- ID Length, 0 = No Id
    0,          -- 0 = No color map
    2,          -- 2 = Uncompressed, true color
    0, 0, 0, 0, -- Color Specification
    0,          -- Color Specification
    0, 0,       -- X Origin Lo/Hi
    0, 0,       -- Y origin Lo/Hi
    (width &&& 0xFF) % 256, (width >>> 8) % 256,    -- Width  Lo/Hi
    (height &&& 0xFF) % 256, (height >>> 8) % 256,  -- Height Lo/Hi
    32,         -- Pixel Depth
    (2 <<< 4) % 256 ] -- Image Descriptor, Top Left Pixel Order

/-- Function `line_width`: `strlen(s) - 1` returned as an `int`; a `strlen` of
zero wraps to `SIZE_MAX`, which converts to `-1`. -/
def line_width (s : List Nat) : Int := (strlen s : Int) - 1

/-- Conversion of an `int` to `size_t` (64 bit). -/
def to_size_t (i : Int) : Nat := (i % 18446744073709551616).toNat

/-- Conversion of a `size_t` to `unsigned` (32 bit). -/
def to_unsigned (n : Nat) : Nat := n % 4294967296

/-- The `for(;EOF != (c = fgetc(in));)` loop of `width`. -/
def width_loop (inp : FILE) (w : Nat) : Except Error (Nat × FILE) :=
  match hf : fgetc inp with
  | (none, inp1) => .ok (w, inp1)
  | (some c, inp1) =>
    if c = LF ∨ c = CR then .ok (w, inp1)
    else
      let w1 := (w + 1) % 4294967296
      if w1 < UINT16_MAX then width_loop inp1 w1 else .error .assert_width
termination_by inp.content.length - inp.pos
decreasing_by
  unfold fgetc at hf
  split at hf
  · simp at hf
  · rename_i c0 rest hu
    simp only [Prod.mk.injEq, Option.some.injEq] at hf
    obtain ⟨-, rfl⟩ := hf
    have hlt : inp.pos < inp.content.length := by
      by_contra hge
      rw [unread, List.drop_eq_nil_of_le (by omega)] at hu
      simp at hu
    simp only
    omega

/-- Function `width`: the number of bytes before the first line ending. -/
def width (inp : FILE) : Except Error (Nat × FILE) :=
  match width_loop (reset inp) 0 with
  | .error e => .error e
  | .ok (w, inp1) => .ok (w % 65536, reset inp1)

/-- The `for(;fgets(line, w + 2, in);)` loop of `height`. -/
def height_loop (w : Nat) (inp : FILE) (h : Nat) : Except Error (Nat × FILE) :=
  match hf : fgets (w + 2) inp with
  | (none, inp1) => .ok (h, inp1)
  | (some line, inp1) =>
    let lw := to_size_t (line_width line)
    if lw ≠ w then
      .error (.invalid_line_width (to_unsigned lw) (to_unsigned w) (c_string line))
    else height_loop w inp1 ((h + 1) % 4294967296)
termination_by inp.content.length - inp.pos
decreasing_by
  simp only [fgets] at hf
  split at hf
  · simp at hf
  · rename_i hne
    simp only [Prod.mk.injEq, Option.some.injEq] at hf
    obtain ⟨-, rfl⟩ := hf
    have hlt : inp.pos < inp.content.length := by
      by_contra hge
      apply hne
      rw [unread, List.drop_eq_nil_of_le (by omega)]
      cases w + 2 - 1 <;> rfl
    have hpos : 0 < (read_line (w + 2 - 1) (unread inp)).length := List.length_pos.mpr hne
    simp only
    omega

/-- Function `height`: the number of `fgets` lines, each checked against the
width of the first line. -/
def height (inp : FILE) : Except Error (Nat × FILE) :=
  match width inp with
  | .error e => .error e
  | .ok (w, inp1) =>
    match height_loop w (reset inp1) 0 with
    | .error e => .error e
    | .ok (h, inp2) =>
      if h < UINT16_MAX then .ok (h % 65536, reset inp2) else .error .assert_height

/-- Function `fwrite_or_die`: append the bytes to the output stream. -/
def fwrite_or_die (bytes : List Nat) (out : List Nat) : List Nat := out ++ bytes

/-- Function `write_pixel`: one B,G,R,A record for the character `c`. -/
def write_pixel (out : List Nat) (c : Nat) : Outcome Unit :=
  if c = ON_CHAR then .ok () (fwrite_or_die [ON, ON, ON, ON] out)
  else if c ≠ OFF_CHAR then .die (.invalid_pixel_value c) out
  else .ok () (fwrite_or_die [OFF, OFF, OFF, ON] out)

/-- The `for(i = 0; i < w; i++) write_pixel(out, line[i]);` loop. -/
def pixel_loop (line : List Nat) (w : Nat) (i : Nat) (out : List Nat) : Outcome Unit :=
  if i < w then
    match write_pixel out (line.getD i 0) with
    | .die e out1 => .die e out1
    | .ok _ out1 => pixel_loop line w (i + 1) out1
  else .ok () out
termination_by w - i

/-- The `for(lc = 0; fgets(line, w + 2, in); lc++)` loop of `binary2tga`. -/
def encode_loop (w : Nat) (inp : FILE) (lc : Nat) (out : List Nat) : Outcome (Nat × FILE) :=
  match hf : fgets (w + 2) inp with
  | (none, inp1) => .ok (lc, inp1) out
  | (some line, inp1) =>
    if (w : Int) = line_width line then
      match pixel_loop line w 0 out with
      | .die e out1 => .die e out1
      | .ok _ out1 => encode_loop w inp1 ((lc + 1) % 65536) out1
    else .die .assert_line_width out
termination_by inp.content.length - inp.pos
decreasing_by
  simp only [fgets] at hf
  split at hf
  · simp at hf
  · rename_i hne
    simp only [Prod.mk.injEq, Option.some.injEq] at hf
    obtain ⟨-, rfl⟩ := hf
    have hlt : inp.pos < inp.content.length := by
      by_contra hge
      apply hne
      rw [unread, List.drop_eq_nil_of_le (by omega)]
      cases w + 2 - 1 <;> rfl
    have hpos : 0 < (read_line (w + 2 - 1) (unread inp)).length := List.length_pos.mpr hne
    simp only
    omega

/-- Function `binary2tga`: the header followed by one record per symbol. -/
def binary2tga (inp : FILE) (out : List Nat) : Outcome (Int × FILE) :=
  match width inp with
  | .error e => .die e out
  | .ok (w, inp1) =>
    match height inp1 with
    | .error e => .die e out
    | .ok (h, inp2) =>
      let head := header w h
      let out1 := fwrite_or_die head out
      match encode_loop w inp2 0 out1 with
      | .die e out2 => .die e out2
      | .ok (lc, inp3) out2 =>
        if lc = h then .ok (0, inp3) out2 else .die .assert_lc out2

/-- The stream `fopen` returns for a file with the given bytes. -/
def fopen (content : List Nat) : FILE := { content := content, pos := 0 }

/-! ## Inputs and expected outputs used in the statements -/

/-- Text of a grid: every row followed by a single line feed. -/
def grid_text : List (List Nat) → List Nat
  | [] => []
  | r :: rows => r ++ LF :: grid_text rows

/-- Text of a grid with every row followed by carriage return, line feed. -/
def crlf_text : List (List Nat) → List Nat
  | [] => []
  | r :: rows => r ++ CR :: LF :: crlf_text rows

/-- All symbols of a grid in row-major order, top row first. -/
def grid_symbols : List (List Nat) → List Nat
  | [] => []
  | r :: rows => r ++ grid_symbols rows

/-- A symbol of the alphabet: `'0'` or `'1'`. -/
def is_symbol (c : Nat) : Prop := c = OFF_CHAR ∨ c = ON_CHAR

instance (c : Nat) : Decidable (is_symbol c) := by
  unfold is_symbol; infer_instance

/-- A valid grid of width `w`: every row has exactly `w` symbols. -/
def valid_grid (w : Nat) (rows : List (List Nat)) : Prop :=
  ∀ r ∈ rows, r.length = w ∧ ∀ c ∈ r, is_symbol c

instance (w : Nat) (rows : List (List Nat)) : Decidable (valid_grid w rows) := by
  unfold valid_grid; infer_instance

/-- Text of rows that each end with a terminator byte of their own. -/
def chunk_text : List (List Nat × Nat) → List Nat
  | [] => []
  | (r, t) :: cs => r ++ t :: chunk_text cs

/-- All row bytes of terminated rows, without the terminators. -/
def chunk_symbols : List (List Nat × Nat) → List Nat
  | [] => []
  | (r, _) :: cs => r ++ chunk_symbols cs

/-- A terminated row that one `fgets(line, w + 2, in)` call reads whole and
whose `line_width` is `w`: `w` bytes without line feed or NUL, followed by a
terminator other than NUL. -/
def is_chunk (w : Nat) (p : List Nat × Nat) : Prop :=
  p.1.length = w ∧ LF ∉ p.1 ∧ 0 ∉ p.1 ∧ p.2 ≠ 0

instance (w : Nat) (p : List Nat × Nat) : Decidable (is_chunk w p) := by
  unfold is_chunk; infer_instance

/-- A grid of width `w` over arbitrary row bytes: every row has exactly `w`
bytes, none of them NUL, line feed or carriage return. -/
def raw_grid (w : Nat) (rows : List (List Nat)) : Prop :=
  ∀ r ∈ rows, r.length = w ∧ ∀ c ∈ r, c ≠ 0 ∧ c ≠ LF ∧ c ≠ CR

instance (w : Nat) (rows : List (List Nat)) : Decidable (raw_grid w rows) := by
  unfold raw_grid; infer_instance

/-- Successive `write_pixel` calls for a sequence of characters. -/
def write_pixels : List Nat → List Nat → Outcome Unit
  | [], out => .ok () out
  | c :: cs, out =>
    match write_pixel out c with
    | .die e out1 => .die e out1
    | .ok _ out1 => write_pixels cs out1

/-- The record expected for a symbol: white for `'1'`, black otherwise. -/
def record (c : Nat) : List Nat :=
  if c = ON_CHAR then [0xFF, 0xFF, 0xFF, 0xFF] else [0x00, 0x00, 0x00, 0xFF]

/-- The records expected for a sequence of symbols. -/
def records : List Nat → List Nat
  | [] => []
  | c :: cs => record c ++ records cs

/-- Number of bytes before the first line ending of a text. -/
def first_line_length (text : List Nat) : Nat :=
  (text.takeWhile (fun c => !(decide (c = LF) || decide (c = CR)))).length

/-- Little-endian decoding of the two bytes at offsets `i` and `i + 1`. -/
def decode_u16 (bytes : List Nat) (i : Nat) : Nat :=
  bytes.getD i 0 + 256 * bytes.getD (i + 1) 0

/-- The failures of the width and height passes. -/
def is_dimension_error (e : Error) : Prop :=
  e = .assert_width ∨ e = .assert_height ∨ ∃ lw w line, e = .invalid_line_width lw w line

/-! ## The stream primitives -/

theorem fgetc_unread_lt {f f1 : FILE} {c : Nat} (hf : fgetc f = (some c, f1)) :
    (unread f1).length < (unread f).length := by
  unfold fgetc at hf
  split at hf
  · simp at hf
  · rename_i c0 rest hu
    simp only [Prod.mk.injEq, Option.some.injEq] at hf
    obtain ⟨-, rfl⟩ := hf
    have h1 : (unread f).length = rest.length + 1 := by rw [hu]; simp
    simp only [unread, List.length_drop] at h1 ⊢
    omega

theorem read_line_length_le (k : Nat) (l : List Nat) :
    (read_line k l).length ≤ l.length := by
  induction k generalizing l with
  | zero => simp [read_line]
  | succ k ih =>
    cases l with
    | nil => simp [read_line]
    | cons c rest =>
      simp only [read_line]
      split
      · simp
      · simpa using ih rest

theorem fgets_unread_lt {n : Nat} {f f1 : FILE} {s : List Nat}
    (hf : fgets n f = (some s, f1)) : (unread f1).length < (unread f).length := by
  simp only [fgets] at hf
  split at hf
  · simp at hf
  · rename_i hne
    simp only [Prod.mk.injEq, Option.some.injEq] at hf
    obtain ⟨-, rfl⟩ := hf
    have hle := read_line_length_le (n - 1) (unread f)
    have hpos : 0 < (read_line (n - 1) (unread f)).length := List.length_pos.mpr hne
    simp only [unread, List.length_drop] at *
    omega


theorem unread_advance (f : FILE) (k : Nat) :
    unread { f with pos := f.pos + k } = (unread f).drop k := by
  simp [unread, List.drop_drop]

theorem unread_reset (f : FILE) : unread (reset f) = f.content := by
  simp [unread, reset]

theorem unread_fopen (text : List Nat) : unread (fopen text) = text := by
  simp [unread, fopen]

theorem fgetc_nil {f : FILE} (hu : unread f = []) : fgetc f = (none, f) := by
  simp [fgetc, hu]

theorem fgetc_cons {f : FILE} {c : Nat} {rest : List Nat} (hu : unread f = c :: rest) :
    fgetc f = (some c, { f with pos := f.pos + 1 }) := by
  simp [fgetc, hu]

theorem width_loop_nil {f : FILE} (w : Nat) (hu : unread f = []) :
    width_loop f w = .ok (w, f) := by
  rw [width_loop]
  split
  · rename_i heq
    rw [fgetc_nil hu] at heq
    simp only [Prod.mk.injEq] at heq
    rw [heq.2]
  · rename_i heq
    rw [fgetc_nil hu] at heq
    simp at heq

theorem width_loop_cons {f : FILE} {c : Nat} {rest : List Nat} (w : Nat)
    (hu : unread f = c :: rest) :
    width_loop f w =
      if c = LF ∨ c = CR then .ok (w, { f with pos := f.pos + 1 })
      else if (w + 1) % 4294967296 < UINT16_MAX then
        width_loop { f with pos := f.pos + 1 } ((w + 1) % 4294967296)
      else .error .assert_width := by
  rw [width_loop]
  split
  · rename_i heq
    rw [fgetc_cons hu] at heq
    simp at heq
  · rename_i heq
    rw [fgetc_cons hu] at heq
    simp only [Prod.mk.injEq, Option.some.injEq] at heq
    obtain ⟨rfl, rfl⟩ := heq
    rfl

/-! ## The width pass -/

theorem first_line_length_nil : first_line_length [] = 0 := rfl

theorem first_line_length_cons_eol {c : Nat} (rest : List Nat) (hc : c = LF ∨ c = CR) :
    first_line_length (c :: rest) = 0 := by
  rcases hc with h | h <;> simp [first_line_length, List.takeWhile_cons, h]

theorem first_line_length_cons {c : Nat} (rest : List Nat) (hc : ¬ (c = LF ∨ c = CR)) :
    first_line_length (c :: rest) = first_line_length rest + 1 := by
  simp only [not_or] at hc
  simp [first_line_length, List.takeWhile_cons, hc.1, hc.2]

/-- The loop of `width` adds the length of the first unread line to `w`
whenever the sum stays below `UINT16_MAX`; the stream content is untouched. -/
theorem width_loop_ok (l : List Nat) : ∀ (f : FILE) (w : Nat), unread f = l →
    w + first_line_length l < UINT16_MAX →
    ∃ f1, width_loop f w = .ok (w + first_line_length l, f1) ∧ f1.content = f.content := by
  induction l with
  | nil =>
    intro f w hu _
    exact ⟨f, by rw [width_loop_nil w hu]; simp [first_line_length_nil], rfl⟩
  | cons c rest ih =>
    intro f w hu hlt
    rw [width_loop_cons w hu]
    by_cases hc : c = LF ∨ c = CR
    · rw [if_pos hc, first_line_length_cons_eol rest hc]
      exact ⟨_, rfl, rfl⟩
    · rw [if_neg hc]
      rw [first_line_length_cons rest hc] at hlt ⊢
      have hmod : (w + 1) % 4294967296 = w + 1 := by
        apply Nat.mod_eq_of_lt
        simp only [UINT16_MAX] at hlt
        omega
      have hlt1 : w + 1 < UINT16_MAX := by omega
      rw [hmod, if_pos hlt1]
      have hu1 : unread { f with pos := f.pos + 1 } = rest := by
        rw [unread_advance, hu]; rfl
      obtain ⟨f1, h1, h2⟩ := ih { f with pos := f.pos + 1 } (w + 1) hu1 (by omega)
      exact ⟨f1, by rw [h1]; congr 2; omega, h2⟩

/-- The loop of `width` fails its assertion when the first unread line takes
the counter to `UINT16_MAX` or beyond. -/
theorem width_loop_assert (l : List Nat) : ∀ (f : FILE) (w : Nat), unread f = l →
    w < UINT16_MAX → UINT16_MAX ≤ w + first_line_length l →
    width_loop f w = .error .assert_width := by
  induction l with
  | nil =>
    intro f w _ hw hge
    simp only [first_line_length_nil] at hge
    omega
  | cons c rest ih =>
    intro f w hu hw hge
    rw [width_loop_cons w hu]
    by_cases hc : c = LF ∨ c = CR
    · rw [first_line_length_cons_eol rest hc] at hge
      omega
    · rw [if_neg hc]
      rw [first_line_length_cons rest hc] at hge
      have hmod : (w + 1) % 4294967296 = w + 1 := by
        apply Nat.mod_eq_of_lt
        simp only [UINT16_MAX] at hw
        omega
      rw [hmod]
      by_cases hlt1 : w + 1 < UINT16_MAX
      · rw [if_pos hlt1]
        have hu1 : unread { f with pos := f.pos + 1 } = rest := by
          rw [unread_advance, hu]; rfl
        exact ih { f with pos := f.pos + 1 } (w + 1) hu1 hlt1 (by omega)
      · rw [if_neg hlt1]

theorem width_ok (f : FILE) (hlt : first_line_length f.content < UINT16_MAX) :
    width f = .ok (first_line_length f.content, reset f) := by
  obtain ⟨f1, h1, h2⟩ := width_loop_ok f.content (reset f) 0 (unread_reset f) (by omega)
  have hmod : first_line_length f.content % 65536 = first_line_length f.content := by
    apply Nat.mod_eq_of_lt
    simp only [UINT16_MAX] at hlt
    omega
  simp only [width, h1, Nat.zero_add, hmod]
  simp only [reset, h2]

theorem width_assert (f : FILE) (hge : UINT16_MAX ≤ first_line_length f.content) :
    width f = .error .assert_width := by
  have h1 := width_loop_assert f.content (reset f) 0 (unread_reset f)
    (by simp [UINT16_MAX]) (by omega)
  simp only [width, h1]

/-! ## Reading one line -/

theorem read_line_row (r : List Nat) (t : Nat) (rest : List Nat) (hr : LF ∉ r) :
    read_line (r.length + 1) (r ++ t :: rest) = r ++ [t] := by
  induction r with
  | nil =>
    simp only [List.length_nil, Nat.zero_add, List.nil_append, read_line]
    split <;> rfl
  | cons b r ih =>
    have hb : b ≠ LF := fun h => hr (by simp [h])
    have hr1 : LF ∉ r := fun h => hr (by simp [h])
    have hstep : read_line (r.length + 1 + 1) (b :: (r ++ t :: rest)) =
        b :: read_line (r.length + 1) (r ++ t :: rest) := by
      simp only [read_line, if_neg hb]
    simp only [List.length_cons, List.cons_append, hstep, ih hr1]

theorem fgets_nil {f : FILE} (n : Nat) (hu : unread f = []) : fgets n f = (none, f) := by
  simp only [fgets, hu]
  cases n - 1 <;> simp [read_line]

theorem fgets_row {f : FILE} {r : List Nat} {t : Nat} {rest : List Nat}
    (hu : unread f = r ++ t :: rest) (hr : LF ∉ r) :
    fgets (r.length + 2) f = (some (r ++ [t]), { f with pos := f.pos + (r.length + 1) }) := by
  have h1 : read_line (r.length + 2 - 1) (unread f) = r ++ [t] := by
    rw [hu]; exact read_line_row r t rest hr
  simp only [fgets, h1]
  simp

theorem unread_after_row {f : FILE} {r : List Nat} {t : Nat} {rest : List Nat}
    (hu : unread f = r ++ t :: rest) :
    unread { f with pos := f.pos + (r.length + 1) } = rest := by
  rw [unread_advance, hu]
  have : r ++ t :: rest = (r ++ [t]) ++ rest := by simp
  rw [this]
  have hl : r.length + 1 = (r ++ [t]).length := by simp
  rw [hl, List.drop_left]

theorem strlen_eq_length (s : List Nat) (hs : 0 ∉ s) : strlen s = s.length := by
  induction s with
  | nil => rfl
  | cons c s ih =>
    have hc : c ≠ 0 := fun h => hs (by simp [h])
    have hs1 : 0 ∉ s := fun h => hs (by simp [h])
    simp only [strlen, if_neg hc, ih hs1, List.length_cons]

theorem line_width_row (r : List Nat) (t : Nat) (hr : 0 ∉ r) (ht : t ≠ 0) :
    line_width (r ++ [t]) = (r.length : Int) := by
  have h0 : 0 ∉ r ++ [t] := by
    simp only [List.mem_append, List.mem_singleton, not_or]
    exact ⟨hr, fun h => ht h.symm⟩
  simp only [line_width, strlen_eq_length _ h0, List.length_append, List.length_singleton]
  push_cast
  omega

theorem to_size_t_natCast (n : Nat) (hn : n < UINT16_MAX) : to_size_t (n : Int) = n := by
  simp only [UINT16_MAX] at hn
  simp only [to_size_t]
  omega

/-! ## The loops of `height` and `binary2tga`, one step -/

theorem height_loop_none {w : Nat} {f f1 : FILE} (h : Nat)
    (hf : fgets (w + 2) f = (none, f1)) : height_loop w f h = .ok (h, f1) := by
  rw [height_loop]
  split
  · rename_i heq
    rw [hf] at heq
    simp only [Prod.mk.injEq] at heq
    rw [heq.2]
  · rename_i heq
    rw [hf] at heq
    simp at heq

theorem height_loop_some {w : Nat} {f f1 : FILE} {line : List Nat} (h : Nat)
    (hf : fgets (w + 2) f = (some line, f1)) :
    height_loop w f h =
      if to_size_t (line_width line) ≠ w then
        .error (.invalid_line_width (to_unsigned (to_size_t (line_width line)))
          (to_unsigned w) (c_string line))
      else height_loop w f1 ((h + 1) % 4294967296) := by
  rw [height_loop]
  split
  · rename_i heq
    rw [hf] at heq
    simp at heq
  · rename_i heq
    rw [hf] at heq
    simp only [Prod.mk.injEq, Option.some.injEq] at heq
    obtain ⟨rfl, rfl⟩ := heq
    rfl

theorem encode_loop_none {w : Nat} {f f1 : FILE} (lc : Nat) (out : List Nat)
    (hf : fgets (w + 2) f = (none, f1)) : encode_loop w f lc out = .ok (lc, f1) out := by
  rw [encode_loop]
  split
  · rename_i heq
    rw [hf] at heq
    simp only [Prod.mk.injEq] at heq
    rw [heq.2]
  · rename_i heq
    rw [hf] at heq
    simp at heq

theorem encode_loop_some {w : Nat} {f f1 : FILE} {line : List Nat} (lc : Nat)
    (out : List Nat) (hf : fgets (w + 2) f = (some line, f1)) :
    encode_loop w f lc out =
      if (w : Int) = line_width line then
        match pixel_loop line w 0 out with
        | .die e out1 => .die e out1
        | .ok _ out1 => encode_loop w f1 ((lc + 1) % 65536) out1
      else .die .assert_line_width out := by
  rw [encode_loop]
  split
  · rename_i heq
    rw [hf] at heq
    simp at heq
  · rename_i heq
    rw [hf] at heq
    simp only [Prod.mk.injEq, Option.some.injEq] at heq
    obtain ⟨rfl, rfl⟩ := heq
    rfl

/-! ## The pixel encoder -/

theorem write_pixel_symbol (out : List Nat) {c : Nat} (hc : is_symbol c) :
    write_pixel out c = .ok () (out ++ record c) := by
  rcases hc with h | h <;> subst h <;> rfl

theorem write_pixel_invalid (out : List Nat) {c : Nat} (hc : ¬ is_symbol c) :
    write_pixel out c = .die (.invalid_pixel_value c) out := by
  simp only [is_symbol, not_or] at hc
  simp only [write_pixel, if_neg hc.2, ne_eq, hc.1, not_false_eq_true, if_true]

theorem write_pixels_append (a b : List Nat) : ∀ out : List Nat,
    write_pixels (a ++ b) out =
      match write_pixels a out with
      | .die e out1 => .die e out1
      | .ok _ out1 => write_pixels b out1 := by
  induction a with
  | nil => intro out; rfl
  | cons c a ih =>
    intro out
    simp only [List.cons_append, write_pixels]
    cases write_pixel out c with
    | die e o => rfl
    | ok v o => exact ih o

theorem write_pixels_symbols (syms : List Nat) : ∀ out : List Nat,
    (∀ c ∈ syms, is_symbol c) → write_pixels syms out = .ok () (out ++ records syms) := by
  induction syms with
  | nil => intro out _; simp [write_pixels, records]
  | cons c syms ih =>
    intro out hs
    have hc : is_symbol c := hs c (by simp)
    have hs1 : ∀ d ∈ syms, is_symbol d := fun d hd => hs d (by simp [hd])
    simp only [write_pixels, write_pixel_symbol out hc, ih _ hs1, records, List.append_assoc]

theorem write_pixels_invalid (good : List Nat) (bad : Nat) (rest out : List Nat)
    (hg : ∀ c ∈ good, is_symbol c) (hb : ¬ is_symbol bad) :
    write_pixels (good ++ bad :: rest) out =
      .die (.invalid_pixel_value bad) (out ++ records good) := by
  rw [write_pixels_append, write_pixels_symbols good out hg]
  simp only [write_pixels, write_pixel_invalid _ hb]

theorem pixel_loop_eq (line : List Nat) (w : Nat) (hw : w ≤ line.length) :
    ∀ (n i : Nat) (out : List Nat), w - i = n →
      pixel_loop line w i out = write_pixels ((line.take w).drop i) out := by
  intro n
  induction n with
  | zero =>
    intro i out hn
    have hi : ¬ i < w := by omega
    rw [pixel_loop, if_neg hi]
    have : (line.take w).drop i = [] := by
      apply List.drop_eq_nil_of_le
      simp only [List.length_take]
      omega
    rw [this]
    rfl
  | succ n ih =>
    intro i out hn
    have hi : i < w := by omega
    have hlen : i < (line.take w).length := by
      simp only [List.length_take]
      omega
    have hget : (line.take w)[i] = line.getD i 0 := by
      rw [List.getElem_take, List.getD_eq_getElem line 0 (by omega)]
    rw [pixel_loop, if_pos hi, List.drop_eq_getElem_cons hlen, hget]
    simp only [write_pixels]
    cases write_pixel out (line.getD i 0) with
    | die e o => rfl
    | ok v o => exact ih (i + 1) o (by omega)

theorem pixel_loop_row (r : List Nat) (t : Nat) (out : List Nat) :
    pixel_loop (r ++ [t]) r.length 0 out = write_pixels r out := by
  rw [pixel_loop_eq (r ++ [t]) r.length (by simp) (r.length - 0) 0 out rfl]
  simp

/-! ## The loops over terminated rows -/

theorem chunk_text_length_cons (r : List Nat) (t : Nat) (cs : List (List Nat × Nat)) :
    (chunk_text ((r, t) :: cs)).length = (r.length + 1) + (chunk_text cs).length := by
  simp only [chunk_text, List.length_append, List.length_cons]
  omega

/-- The loop of `height` counts every terminated row of width `w`. -/
theorem height_loop_chunks (w : Nat) (hw : w < UINT16_MAX) :
    ∀ (cs : List (List Nat × Nat)) (f : FILE) (h : Nat),
      unread f = chunk_text cs → (∀ p ∈ cs, is_chunk w p) → h + cs.length < 4294967296 →
      height_loop w f h =
        .ok (h + cs.length, { f with pos := f.pos + (chunk_text cs).length }) := by
  intro cs
  induction cs with
  | nil =>
    intro f h hu _ _
    rw [height_loop_none h (fgets_nil (w + 2) hu)]
    rfl
  | cons p cs ih =>
    intro f h hu hcs hlt
    obtain ⟨r, t⟩ := p
    obtain ⟨hlen, hlf, hnul, ht⟩ := hcs (r, t) (by simp)
    simp only at hlen hlf hnul ht
    subst hlen
    have hu1 : unread f = r ++ t :: chunk_text cs := hu
    rw [height_loop_some h (fgets_row hu1 hlf), line_width_row r t hnul ht,
      to_size_t_natCast _ hw]
    simp only [ne_eq, not_true_eq_false, if_false]
    simp only [List.length_cons] at hlt
    have hmod : (h + 1) % 4294967296 = h + 1 := Nat.mod_eq_of_lt (by omega)
    rw [hmod, ih _ (h + 1) (unread_after_row hu1) (fun q hq => hcs q (by simp [hq])) (by omega)]
    simp only [chunk_text_length_cons, List.length_cons]
    congr 2
    · omega
    · congr 1
      omega

/-- The loop of `binary2tga` writes the records of every terminated row of
width `w` in order, stopping at the first character `write_pixel` rejects. -/
theorem encode_loop_chunks (w : Nat) :
    ∀ (cs : List (List Nat × Nat)) (f : FILE) (lc : Nat) (out : List Nat),
      unread f = chunk_text cs → (∀ p ∈ cs, is_chunk w p) → lc + cs.length < 65536 →
      encode_loop w f lc out =
        match write_pixels (chunk_symbols cs) out with
        | .die e out1 => .die e out1
        | .ok _ out1 =>
          .ok (lc + cs.length, { f with pos := f.pos + (chunk_text cs).length }) out1 := by
  intro cs
  induction cs with
  | nil =>
    intro f lc out hu _ _
    rw [encode_loop_none lc out (fgets_nil (w + 2) hu)]
    rfl
  | cons p cs ih =>
    intro f lc out hu hcs hlt
    obtain ⟨r, t⟩ := p
    obtain ⟨hlen, hlf, hnul, ht⟩ := hcs (r, t) (by simp)
    simp only at hlen hlf hnul ht
    subst hlen
    have hu1 : unread f = r ++ t :: chunk_text cs := hu
    rw [encode_loop_some lc out (fgets_row hu1 hlf), line_width_row r t hnul ht]
    simp only [if_true, pixel_loop_row, chunk_symbols, write_pixels_append]
    simp only [List.length_cons] at hlt
    have hmod : (lc + 1) % 65536 = lc + 1 := Nat.mod_eq_of_lt (by omega)
    cases write_pixels r out with
    | die e o => rfl
    | ok v o =>
      simp only [hmod]
      rw [ih _ (lc + 1) o (unread_after_row hu1) (fun q hq => hcs q (by simp [hq])) (by omega)]
      simp only [chunk_text_length_cons, List.length_cons]
      cases write_pixels (chunk_symbols cs) o with
      | die e o1 => rfl
      | ok v1 o1 =>
        simp only
        congr 2
        · omega
        · congr 1
          omega

/-! ## The whole conversion on terminated rows -/

theorem first_line_length_row (r : List Nat) (t : Nat) (rest : List Nat)
    (hr : ∀ c ∈ r, ¬ (c = LF ∨ c = CR)) (ht : t = LF ∨ t = CR) :
    first_line_length (r ++ t :: rest) = r.length := by
  induction r with
  | nil => exact first_line_length_cons_eol rest ht
  | cons c r ih =>
    have hc := hr c (by simp)
    have hr1 : ∀ d ∈ r, ¬ (d = LF ∨ d = CR) := fun d hd => hr d (by simp [hd])
    simp only [List.cons_append, List.length_cons]
    rw [first_line_length_cons _ hc, ih hr1]

/-- Conversion of a text made of terminated rows of width `w`, where `w` is
also what the width pass finds: the header, then the records in order up to
the first character `write_pixel` rejects. -/
theorem binary2tga_chunks (w : Nat) (cs : List (List Nat × Nat)) (f : FILE) (out : List Nat)
    (hw : w < UINT16_MAX) (hh : cs.length < UINT16_MAX)
    (hf : f.content = chunk_text cs) (hcs : ∀ p ∈ cs, is_chunk w p)
    (hfirst : first_line_length (chunk_text cs) = w) :
    binary2tga f out =
      match write_pixels (chunk_symbols cs) (out ++ header w cs.length) with
      | .die e out1 => .die e out1
      | .ok _ out1 =>
        .ok (0, { content := chunk_text cs, pos := (chunk_text cs).length }) out1 := by
  have hh1 : cs.length < 65535 := hh
  have hwidth : ∀ g : FILE, g.content = chunk_text cs → width g = .ok (w, reset g) := by
    intro g hg
    have := width_ok g (by rw [hg, hfirst]; exact hw)
    rw [this, hg, hfirst]
  have hloop := height_loop_chunks w hw cs (reset (reset (reset f))) 0
    (by simp [unread, reset, hf]) hcs (by omega)
  have hheight : height (reset f) =
      .ok (cs.length, { content := chunk_text cs, pos := 0 }) := by
    simp only [height, hwidth (reset f) (by simp [reset, hf]), hloop, Nat.zero_add]
    have hmod : cs.length % 65536 = cs.length := Nat.mod_eq_of_lt (by omega)
    rw [if_pos hh, hmod]
    simp [reset, hf]
  have henc := encode_loop_chunks w cs { content := chunk_text cs, pos := 0 } 0
    (fwrite_or_die (header w cs.length) out) (by simp [unread]) hcs (by omega)
  simp only [fwrite_or_die, Nat.zero_add] at henc
  simp only [binary2tga, hwidth f hf, hheight, fwrite_or_die, henc]
  cases write_pixels (chunk_symbols cs) (out ++ header w cs.length) with
  | die e o => rfl
  | ok v o => simp

/-! ## Grids -/

theorem grid_text_eq_chunk_text (rows : List (List Nat)) :
    grid_text rows = chunk_text (rows.map (fun r => (r, LF))) := by
  induction rows with
  | nil => rfl
  | cons r rows ih => simp only [grid_text, List.map_cons, chunk_text, ih]

theorem grid_symbols_eq_chunk_symbols (t : Nat) (rows : List (List Nat)) :
    grid_symbols rows = chunk_symbols (rows.map (fun r => (r, t))) := by
  induction rows with
  | nil => rfl
  | cons r rows ih => simp only [grid_symbols, List.map_cons, chunk_symbols, ih]

theorem is_symbol_ne {c : Nat} (hc : is_symbol c) : c ≠ LF ∧ c ≠ CR ∧ c ≠ 0 := by
  rcases hc with h | h <;> subst h <;> decide

theorem valid_grid_is_chunk {w : Nat} {rows : List (List Nat)} (hv : valid_grid w rows)
    {t : Nat} (ht : t ≠ 0) : ∀ p ∈ rows.map (fun r => (r, t)), is_chunk w p := by
  intro p hp
  simp only [List.mem_map] at hp
  obtain ⟨r, hr, rfl⟩ := hp
  obtain ⟨hlen, hsym⟩ := hv r hr
  exact ⟨hlen, fun h => (is_symbol_ne (hsym _ h)).1 rfl,
    fun h => (is_symbol_ne (hsym _ h)).2.2 rfl, ht⟩

theorem grid_symbols_all {w : Nat} {rows : List (List Nat)} (hv : valid_grid w rows) :
    ∀ c ∈ grid_symbols rows, is_symbol c := by
  induction rows with
  | nil => intro c hc; simp [grid_symbols] at hc
  | cons r rows ih =>
    intro c hc
    simp only [grid_symbols, List.mem_append] at hc
    rcases hc with h | h
    · exact (hv r (by simp)).2 c h
    · exact ih (fun q hq => hv q (by simp [hq])) c h

theorem grid_symbols_length {w : Nat} {rows : List (List Nat)} (hv : valid_grid w rows) :
    (grid_symbols rows).length = w * rows.length := by
  induction rows with
  | nil => rfl
  | cons r rows ih =>
    simp only [grid_symbols, List.length_append, List.length_cons,
      ih (fun q hq => hv q (by simp [hq])), (hv r (by simp)).1]
    ring

theorem first_line_length_grid {w : Nat} {rows : List (List Nat)} (hv : valid_grid w rows)
    (hne : rows ≠ []) : first_line_length (grid_text rows) = w := by
  cases rows with
  | nil => exact absurd rfl hne
  | cons r rows =>
    obtain ⟨hlen, hsym⟩ := hv r (by simp)
    simp only [grid_text]
    rw [first_line_length_row r LF _ (fun c hc => ?_) (Or.inl rfl), hlen]
    have := is_symbol_ne (hsym c hc)
    simp only [not_or]
    exact ⟨this.1, this.2.1⟩

/-- Conversion of a valid grid: success, with the header and the records of
all symbols in row-major order. -/
theorem binary2tga_grid (w : Nat) (rows : List (List Nat)) (hv : valid_grid w rows)
    (hne : rows ≠ []) (hw : w < UINT16_MAX) (hh : rows.length < UINT16_MAX) :
    binary2tga (fopen (grid_text rows)) [] =
      .ok (0, { content := grid_text rows, pos := (grid_text rows).length })
        (header w rows.length ++ records (grid_symbols rows)) := by
  have hcs := valid_grid_is_chunk hv (show LF ≠ 0 by decide)
  have hfirst := first_line_length_grid hv hne
  rw [grid_text_eq_chunk_text] at hfirst
  have h := binary2tga_chunks w (rows.map (fun r => (r, LF))) (fopen (grid_text rows)) []
    hw (by simpa using hh) (by simp [fopen, grid_text_eq_chunk_text]) hcs hfirst
  rw [h, ← grid_symbols_eq_chunk_symbols, ← grid_text_eq_chunk_text,
    write_pixels_symbols _ _ (grid_symbols_all hv)]
  simp

/-! ## The header -/

theorem header_eq (width height : Nat) (hw : width < 65536) (hh : height < 65536) :
    header width height =
      [0, 0, 2, 0, 0, 0, 0, 0, 0, 0, 0, 0,
        width % 256, width / 256, height % 256, height / 256, 32, 0x20] := by
  have hand : ∀ n : Nat, (n &&& 0xFF) % 256 = n % 256 := by
    intro n
    have h := Nat.and_pow_two_sub_one_eq_mod n 8
    norm_num at h
    rw [h]
    omega
  have hshift : ∀ n : Nat, n < 65536 → (n >>> 8) % 256 = n / 256 := by
    intro n hn
    rw [Nat.shiftRight_eq_div_pow]
    omega
  have hdesc : (2 <<< 4) % 256 = 0x20 := by decide
  simp only [header, hand, hshift width hw, hshift height hh, hdesc]

theorem header_length (width height : Nat) : (header width height).length = 18 := rfl

theorem decode_header (width height : Nat) (hw : width < 65536) (hh : height < 65536)
    (extra : List Nat) :
    decode_u16 (header width height ++ extra) 12 = width ∧
      decode_u16 (header width height ++ extra) 14 = height := by
  rw [header_eq width height hw hh]
  simp only [decode_u16, List.cons_append, List.getD_cons_succ, List.getD_cons_zero]
  omega

/-! ## Records by index -/

theorem record_length (c : Nat) : (record c).length = 4 := by
  unfold record
  split <;> rfl

theorem records_length (syms : List Nat) : (records syms).length = 4 * syms.length := by
  induction syms with
  | nil => rfl
  | cons c syms ih =>
    simp only [records, List.length_append, record_length, ih, List.length_cons]
    omega

theorem records_drop_take (syms : List Nat) : ∀ i : Nat, i < syms.length →
    ((records syms).drop (4 * i)).take 4 = record (syms.getD i 0) := by
  induction syms with
  | nil => intro i hi; simp at hi
  | cons c syms ih =>
    intro i hi
    cases i with
    | zero =>
      simp only [records, Nat.mul_zero, List.drop_zero, List.getD_cons_zero]
      rw [List.take_append_of_le_length (by rw [record_length])]
      exact List.take_of_length_le (by rw [record_length])
    | succ j =>
      have h4 : 4 * (j + 1) = (record c).length + 4 * j := by
        rw [record_length]; omega
      simp only [records, List.getD_cons_succ]
      rw [h4, List.drop_append]
      exact ih j (by simpa using hi)

theorem grid_symbols_getD {w : Nat} (rows : List (List Nat)) (hv : valid_grid w rows) :
    ∀ y x : Nat, y < rows.length → x < w →
      (grid_symbols rows).getD (y * w + x) 0 = (rows.getD y []).getD x 0 := by
  induction rows with
  | nil => intro y x hy; simp at hy
  | cons r rows ih =>
    intro y x hy hx
    have hlen : r.length = w := (hv r (by simp)).1
    cases y with
    | zero =>
      simp only [grid_symbols, Nat.zero_mul, Nat.zero_add, List.getD_cons_zero]
      exact List.getD_append r _ 0 x (by omega)
    | succ y =>
      simp only [grid_symbols, List.getD_cons_succ]
      rw [List.getD_append_right r _ 0 _ (by rw [hlen, Nat.succ_mul]; omega)]
      have hidx : (y + 1) * w + x - r.length = y * w + x := by
        rw [hlen, Nat.succ_mul]; omega
      rw [hidx]
      exact ih (fun q hq => hv q (by simp [hq])) y x (by simpa using hy) hx

/-! ## Dimension bounds -/

theorem binary2tga_assert_width (f : FILE) (out : List Nat)
    (hge : UINT16_MAX ≤ first_line_length f.content) :
    binary2tga f out = .die .assert_width out := by
  simp only [binary2tga, width_assert f hge]

theorem binary2tga_chunks_assert_height (w : Nat) (cs : List (List Nat × Nat)) (f : FILE)
    (out : List Nat) (hw : w < UINT16_MAX) (hh : UINT16_MAX ≤ cs.length)
    (hh2 : cs.length < 4294967296)
    (hf : f.content = chunk_text cs) (hcs : ∀ p ∈ cs, is_chunk w p)
    (hfirst : first_line_length (chunk_text cs) = w) :
    binary2tga f out = .die .assert_height out := by
  have hwidth : ∀ g : FILE, g.content = chunk_text cs → width g = .ok (w, reset g) := by
    intro g hg
    have := width_ok g (by rw [hg, hfirst]; exact hw)
    rw [this, hg, hfirst]
  have hloop := height_loop_chunks w hw cs (reset (reset (reset f))) 0
    (by simp [unread, reset, hf]) hcs (by omega)
  have hheight : height (reset f) = .error .assert_height := by
    simp only [height, hwidth (reset f) (by simp [reset, hf]), hloop, Nat.zero_add]
    rw [if_neg (by omega)]
  simp only [binary2tga, hwidth f hf, hheight]

theorem binary2tga_grid_assert_height (w : Nat) (rows : List (List Nat))
    (hv : valid_grid w rows) (hw : w < UINT16_MAX) (hh : UINT16_MAX ≤ rows.length)
    (hh2 : rows.length < 4294967296) :
    binary2tga (fopen (grid_text rows)) [] = .die .assert_height [] := by
  have hne : rows ≠ [] := by
    intro h0
    rw [h0] at hh
    exact absurd hh (by decide)
  have hcs := valid_grid_is_chunk hv (show LF ≠ 0 by decide)
  have hfirst := first_line_length_grid hv hne
  rw [grid_text_eq_chunk_text] at hfirst
  exact binary2tga_chunks_assert_height w (rows.map (fun r => (r, LF)))
    (fopen (grid_text rows)) [] hw (by simpa using hh) (by simpa using hh2)
    (by simp [fopen, grid_text_eq_chunk_text]) hcs hfirst

theorem valid_grid_replicate (w h c : Nat) (hc : is_symbol c) :
    valid_grid w (List.replicate h (List.replicate w c)) := by
  intro r hr
  rw [List.eq_of_mem_replicate hr]
  exact ⟨List.length_replicate w c, fun d hd => by rw [List.eq_of_mem_replicate hd]; exact hc⟩

/-! ## Output of the loops extends the stream -/

theorem write_pixel_extends {out out1 : List Nat} {c : Nat} {v : Unit}
    (h : write_pixel out c = .ok v out1) : ∃ extra, out1 = out ++ extra := by
  unfold write_pixel at h
  split at h
  · simp only [Outcome.ok.injEq, fwrite_or_die, true_and] at h
    exact ⟨_, h.symm⟩
  · split at h
    · simp at h
    · simp only [Outcome.ok.injEq, fwrite_or_die, true_and] at h
      exact ⟨_, h.symm⟩

theorem pixel_loop_extends (line : List Nat) (w : Nat) :
    ∀ (n i : Nat) (out out1 : List Nat) (v : Unit), w - i = n →
      pixel_loop line w i out = .ok v out1 → ∃ extra, out1 = out ++ extra := by
  intro n
  induction n with
  | zero =>
    intro i out out1 v hn h
    have hi : ¬ i < w := by omega
    rw [pixel_loop, if_neg hi] at h
    simp only [Outcome.ok.injEq, true_and] at h
    exact ⟨[], by simp [h]⟩
  | succ n ih =>
    intro i out out1 v hn h
    have hi : i < w := by omega
    rw [pixel_loop, if_pos hi] at h
    cases hwp : write_pixel out (line.getD i 0) with
    | die e o => rw [hwp] at h; simp at h
    | ok u o =>
      rw [hwp] at h
      obtain ⟨e1, he1⟩ := write_pixel_extends hwp
      obtain ⟨e2, he2⟩ := ih (i + 1) o out1 v (by omega) h
      exact ⟨e1 ++ e2, by rw [he2, he1, List.append_assoc]⟩

theorem encode_loop_extends (w : Nat) :
    ∀ (n : Nat) (f : FILE) (lc : Nat) (out out2 : List Nat) (v : Nat × FILE),
      (unread f).length ≤ n → encode_loop w f lc out = .ok v out2 →
      ∃ extra, out2 = out ++ extra := by
  intro n
  induction n with
  | zero =>
    intro f lc out out2 v hn h
    have hu : unread f = [] := List.length_eq_zero.mp (by omega)
    rw [encode_loop_none lc out (fgets_nil (w + 2) hu)] at h
    simp only [Outcome.ok.injEq] at h
    exact ⟨[], by simp [h.2]⟩
  | succ n ih =>
    intro f lc out out2 v hn h
    rcases hfg : fgets (w + 2) f with ⟨o, f1⟩
    cases o with
    | none =>
      rw [encode_loop_none lc out hfg] at h
      simp only [Outcome.ok.injEq] at h
      exact ⟨[], by simp [h.2]⟩
    | some line =>
      rw [encode_loop_some lc out hfg] at h
      split at h
      · cases hpl : pixel_loop line w 0 out with
        | die e o => rw [hpl] at h; simp at h
        | ok u o =>
          rw [hpl] at h
          obtain ⟨e1, he1⟩ := pixel_loop_extends line w (w - 0) 0 out o u rfl hpl
          have hlt := fgets_unread_lt hfg
          obtain ⟨e2, he2⟩ := ih f1 _ o out2 v (by omega) h
          exact ⟨e1 ++ e2, by rw [he2, he1, List.append_assoc]⟩
      · simp at h

theorem width_eq_ok {f f1 : FILE} {w : Nat} (h : width f = .ok (w, f1)) :
    w < 65536 ∧ f1.pos = 0 := by
  unfold width at h
  split at h
  · simp at h
  · simp only [Except.ok.injEq, Prod.mk.injEq] at h
    obtain ⟨rfl, rfl⟩ := h
    exact ⟨Nat.mod_lt _ (by decide), rfl⟩

theorem width_loop_content (l : List Nat) : ∀ (f f1 : FILE) (w w1 : Nat), unread f = l →
    width_loop f w = .ok (w1, f1) → f1.content = f.content := by
  induction l with
  | nil =>
    intro f f1 w w1 hu h
    rw [width_loop_nil w hu] at h
    simp only [Except.ok.injEq, Prod.mk.injEq] at h
    rw [← h.2]
  | cons c rest ih =>
    intro f f1 w w1 hu h
    rw [width_loop_cons w hu] at h
    split at h
    · simp only [Except.ok.injEq, Prod.mk.injEq] at h
      rw [← h.2]
    · split at h
      · have hu1 : unread { f with pos := f.pos + 1 } = rest := by
          rw [unread_advance, hu]; rfl
        exact ih { f with pos := f.pos + 1 } f1 _ w1 hu1 h
      · simp at h

theorem width_stream {f f1 : FILE} {w : Nat} (h : width f = .ok (w, f1)) :
    f1 = reset f := by
  unfold width at h
  split at h
  · simp at h
  · rename_i w0 g hg
    simp only [Except.ok.injEq, Prod.mk.injEq] at h
    have hc := width_loop_content _ (reset f) g 0 w0 rfl hg
    rw [← h.2]
    simp only [reset, hc]

theorem height_reset (f : FILE) : height (reset f) = height f := rfl

theorem height_eq_ok {f f1 : FILE} {h : Nat} (hh : height f = .ok (h, f1)) :
    h < 65536 ∧ h < 65535 := by
  unfold height at hh
  split at hh
  · simp at hh
  · split at hh
    · simp at hh
    · split at hh
      · rename_i hlt
        simp only [Except.ok.injEq, Prod.mk.injEq, UINT16_MAX] at hh hlt
        rw [← hh.1]
        omega
      · simp at hh

theorem width_value {f f1 : FILE} {w : Nat} (h : width f = .ok (w, f1)) :
    w = first_line_length f.content ∧ w < 65535 := by
  by_cases hlt : first_line_length f.content < UINT16_MAX
  · rw [width_ok f hlt] at h
    simp only [Except.ok.injEq, Prod.mk.injEq] at h
    rw [← h.1]
    exact ⟨rfl, hlt⟩
  · rw [width_assert f (by omega)] at h
    simp at h

/-! ## Short lines, carriage returns and arbitrary row bytes -/

theorem read_line_short (k : Nat) : ∀ (r rest : List Nat), LF ∉ r → r.length < k →
    read_line k (r ++ LF :: rest) = r ++ [LF] := by
  induction k with
  | zero => intro r rest _ hlen; omega
  | succ k ih =>
    intro r rest hr hlen
    cases r with
    | nil => simp only [List.nil_append, read_line, if_true]
    | cons b r =>
      have hb : b ≠ LF := fun h => hr (by simp [h])
      have hr1 : LF ∉ r := fun h => hr (by simp [h])
      have hstep : read_line (k + 1) (b :: (r ++ LF :: rest)) =
          b :: read_line k (r ++ LF :: rest) := by
        simp only [read_line, if_neg hb]
      simp only [List.cons_append, hstep]
      rw [ih r rest hr1 (by simpa using hlen)]

theorem fgets_short {f : FILE} {r rest : List Nat} (w : Nat)
    (hu : unread f = r ++ LF :: rest) (hr : LF ∉ r) (hlen : r.length ≤ w) :
    fgets (w + 2) f = (some (r ++ [LF]), { f with pos := f.pos + (r.length + 1) }) := by
  have h1 : read_line (w + 2 - 1) (unread f) = r ++ [LF] := by
    rw [hu]; exact read_line_short _ r rest hr (by omega)
  simp only [fgets, h1]
  simp

theorem raw_grid_of_valid_grid {w : Nat} {rows : List (List Nat)} (hv : valid_grid w rows) :
    raw_grid w rows := by
  intro r hr
  obtain ⟨hlen, hsym⟩ := hv r hr
  refine ⟨hlen, fun c hc => ?_⟩
  have := is_symbol_ne (hsym c hc)
  exact ⟨this.2.2, this.1, this.2.1⟩

theorem raw_grid_is_chunk {w : Nat} {rows : List (List Nat)} (hv : raw_grid w rows)
    {t : Nat} (ht : t ≠ 0) : ∀ p ∈ rows.map (fun r => (r, t)), is_chunk w p := by
  intro p hp
  simp only [List.mem_map] at hp
  obtain ⟨r, hr, rfl⟩ := hp
  obtain ⟨hlen, hsym⟩ := hv r hr
  exact ⟨hlen, fun h => (hsym _ h).2.1 rfl, fun h => (hsym _ h).1 rfl, ht⟩

theorem first_line_length_raw_grid {w : Nat} {rows : List (List Nat)} (hv : raw_grid w rows)
    (hne : rows ≠ []) : first_line_length (grid_text rows) = w := by
  cases rows with
  | nil => exact absurd rfl hne
  | cons r rows =>
    obtain ⟨hlen, hsym⟩ := hv r (by simp)
    simp only [grid_text]
    rw [first_line_length_row r LF _ (fun c hc => ?_) (Or.inl rfl), hlen]
    have := hsym c hc
    simp only [not_or]
    exact ⟨this.2.1, this.2.2⟩

/-- Conversion of a grid over arbitrary row bytes: the header, then the
records up to the first character that is not a symbol. -/
theorem binary2tga_raw_grid (w : Nat) (rows : List (List Nat)) (hv : raw_grid w rows)
    (hne : rows ≠ []) (hw : w < UINT16_MAX) (hh : rows.length < UINT16_MAX) :
    binary2tga (fopen (grid_text rows)) [] =
      match write_pixels (grid_symbols rows) (header w rows.length) with
      | .die e out1 => .die e out1
      | .ok _ out1 =>
        .ok (0, { content := grid_text rows, pos := (grid_text rows).length }) out1 := by
  have hcs := raw_grid_is_chunk hv (show LF ≠ 0 by decide)
  have hfirst := first_line_length_raw_grid hv hne
  rw [grid_text_eq_chunk_text] at hfirst
  have h := binary2tga_chunks w (rows.map (fun r => (r, LF))) (fopen (grid_text rows)) []
    hw (by simpa using hh) (by simp [fopen, grid_text_eq_chunk_text]) hcs hfirst
  rw [h, ← grid_symbols_eq_chunk_symbols, ← grid_text_eq_chunk_text]
  simp

theorem first_invalid_split (l : List Nat) (h : ∃ c ∈ l, ¬ is_symbol c) :
    ∃ good bad rest, l = good ++ bad :: rest ∧ (∀ c ∈ good, is_symbol c) ∧ ¬ is_symbol bad := by
  induction l with
  | nil =>
    obtain ⟨c, hc, _⟩ := h
    simp at hc
  | cons a l ih =>
    by_cases ha : is_symbol a
    · have h1 : ∃ c ∈ l, ¬ is_symbol c := by
        obtain ⟨c, hc, hns⟩ := h
        rcases List.mem_cons.mp hc with rfl | hcl
        · exact absurd ha hns
        · exact ⟨c, hcl, hns⟩
      obtain ⟨good, bad, rest, heq, hg, hb⟩ := ih h1
      refine ⟨a :: good, bad, rest, by rw [heq]; rfl, ?_, hb⟩
      intro c hc
      rcases List.mem_cons.mp hc with rfl | hcg
      · exact ha
      · exact hg c hcg
    · exact ⟨[], a, l, rfl, fun c hc => by simp at hc, ha⟩

/-- Conversion of a valid grid whose rows end with carriage return, line
feed: the second `fgets` of the height pass reads the lone line feed and the
process dies on its width 0. -/
theorem binary2tga_crlf (w : Nat) (rows : List (List Nat)) (hv : valid_grid w rows)
    (hne : rows ≠ []) (hw1 : 1 ≤ w) (hw : w < UINT16_MAX) :
    binary2tga (fopen (crlf_text rows)) [] = .die (.invalid_line_width 0 w [LF]) [] := by
  cases rows with
  | nil => exact absurd rfl hne
  | cons r rows =>
    obtain ⟨hlen, hsym⟩ := hv r (by simp)
    subst hlen
    have hlf : LF ∉ r := fun h => (is_symbol_ne (hsym _ h)).1 rfl
    have hnul : (0 : Nat) ∉ r := fun h => (is_symbol_ne (hsym _ h)).2.2 rfl
    have htext : crlf_text (r :: rows) = r ++ CR :: (LF :: crlf_text rows) := rfl
    have hfirst : first_line_length (crlf_text (r :: rows)) = r.length := by
      rw [htext]
      refine first_line_length_row r CR _ (fun c hc => ?_) (Or.inr rfl)
      have := is_symbol_ne (hsym c hc)
      simp only [not_or]
      exact ⟨this.1, this.2.1⟩
    have hwidth : ∀ g : FILE, g.content = crlf_text (r :: rows) →
        width g = .ok (r.length, reset g) := by
      intro g hg
      have := width_ok g (by rw [hg, hfirst]; exact hw)
      rw [this, hg, hfirst]
    have hu : unread (reset (reset (reset (fopen (crlf_text (r :: rows)))))) =
        r ++ CR :: (LF :: crlf_text rows) := by
      simp [unread, reset, fopen, htext]
    have hu2 := unread_after_row hu
    have hu3 : unread { reset (reset (reset (fopen (crlf_text (r :: rows))))) with
        pos := (reset (reset (reset (fopen (crlf_text (r :: rows)))))).pos + (r.length + 1) } =
        [] ++ LF :: crlf_text rows := hu2
    have hloop : height_loop r.length (reset (reset (reset (fopen (crlf_text (r :: rows)))))) 0 =
        .error (.invalid_line_width 0 r.length [LF]) := by
      rw [height_loop_some 0 (fgets_row hu hlf), line_width_row r CR hnul (by decide),
        to_size_t_natCast _ hw]
      simp only [ne_eq, not_true_eq_false, if_false]
      rw [height_loop_some _ (fgets_short r.length hu3 (by simp) (by simp))]
      have hlw : to_size_t (line_width ([] ++ [LF])) = 0 := by decide
      have hne0 : (0 : Nat) ≠ r.length := by omega
      have hcs : c_string ([] ++ [LF]) = [LF] := by decide
      have hun : to_unsigned r.length = r.length := by
        simp only [to_unsigned, UINT16_MAX] at hw ⊢
        omega
      rw [hlw, if_pos hne0, hcs, hun]
      rfl
    have hheight : height (reset (fopen (crlf_text (r :: rows)))) =
        .error (.invalid_line_width 0 r.length [LF]) := by
      simp only [height, hwidth (reset (fopen (crlf_text (r :: rows)))) rfl, hloop]
    simp only [binary2tga, hwidth (fopen (crlf_text (r :: rows))) rfl, hheight]

theorem first_line_length_replicate (n : Nat) :
    first_line_length (List.replicate n OFF_CHAR) = n := by
  induction n with
  | zero => rfl
  | succ n ih =>
    rw [List.replicate_succ, first_line_length_cons _ (by decide), ih]

/-! ## The stream across the passes -/

theorem fgets_content {n : Nat} {f f1 : FILE} {o : Option (List Nat)}
    (hf : fgets n f = (o, f1)) : f1.content = f.content := by
  simp only [fgets] at hf
  split at hf
  · simp only [Prod.mk.injEq] at hf
    rw [← hf.2]
  · simp only [Prod.mk.injEq] at hf
    rw [← hf.2]

theorem read_line_length_le_count (k : Nat) (l : List Nat) : (read_line k l).length ≤ k := by
  induction k generalizing l with
  | zero => simp [read_line]
  | succ k ih =>
    cases l with
    | nil => simp [read_line]
    | cons c rest =>
      simp only [read_line]
      split
      · simp
      · simpa using ih rest

theorem fgets_line_length {w : Nat} {f f1 : FILE} {line : List Nat}
    (hf : fgets (w + 2) f = (some line, f1)) : line.length ≤ w + 1 := by
  simp only [fgets] at hf
  split at hf
  · simp at hf
  · simp only [Prod.mk.injEq, Option.some.injEq] at hf
    rw [← hf.1]
    exact read_line_length_le_count _ _

theorem strlen_le_length (s : List Nat) : strlen s ≤ s.length := by
  induction s with
  | nil => simp [strlen]
  | cons c s ih =>
    simp only [strlen, List.length_cons]
    split
    · omega
    · omega

/-- A line accepted by the check of `height` passes the assertion of
`binary2tga`: both say that `strlen` is `w + 1`. -/
theorem line_width_agree {w : Nat} {line : List Nat} (hw : w < UINT16_MAX)
    (hlen : line.length ≤ w + 1) (h : ¬ to_size_t (line_width line) ≠ w) :
    (w : Int) = line_width line := by
  have hs := strlen_le_length line
  simp only [UINT16_MAX] at hw
  simp only [to_size_t, line_width, ne_eq, not_not] at h ⊢
  omega

theorem height_loop_content (w : Nat) :
    ∀ (n : Nat) (f f1 : FILE) (h h1 : Nat), (unread f).length ≤ n →
      height_loop w f h = .ok (h1, f1) → f1.content = f.content := by
  intro n
  induction n with
  | zero =>
    intro f f1 h h1 hn hl
    have hu : unread f = [] := List.length_eq_zero.mp (by omega)
    rw [height_loop_none h (fgets_nil (w + 2) hu)] at hl
    simp only [Except.ok.injEq, Prod.mk.injEq] at hl
    rw [← hl.2]
  | succ n ih =>
    intro f f1 h h1 hn hl
    rcases hfg : fgets (w + 2) f with ⟨o, g⟩
    cases o with
    | none =>
      rw [height_loop_none h hfg] at hl
      simp only [Except.ok.injEq, Prod.mk.injEq] at hl
      rw [← hl.2]
      exact fgets_content hfg
    | some line =>
      rw [height_loop_some h hfg] at hl
      split at hl
      · simp at hl
      · have hlt := fgets_unread_lt hfg
        rw [ih g f1 _ h1 (by omega) hl]
        exact fgets_content hfg

theorem encode_loop_content (w : Nat) :
    ∀ (n : Nat) (f f1 : FILE) (lc lc1 : Nat) (out out1 : List Nat), (unread f).length ≤ n →
      encode_loop w f lc out = .ok (lc1, f1) out1 → f1.content = f.content := by
  intro n
  induction n with
  | zero =>
    intro f f1 lc lc1 out out1 hn hl
    have hu : unread f = [] := List.length_eq_zero.mp (by omega)
    rw [encode_loop_none lc out (fgets_nil (w + 2) hu)] at hl
    simp only [Outcome.ok.injEq, Prod.mk.injEq] at hl
    rw [← hl.1.2]
  | succ n ih =>
    intro f f1 lc lc1 out out1 hn hl
    rcases hfg : fgets (w + 2) f with ⟨o, g⟩
    cases o with
    | none =>
      rw [encode_loop_none lc out hfg] at hl
      simp only [Outcome.ok.injEq, Prod.mk.injEq] at hl
      rw [← hl.1.2]
      exact fgets_content hfg
    | some line =>
      rw [encode_loop_some lc out hfg] at hl
      split at hl
      · cases hpl : pixel_loop line w 0 out with
        | die e o => rw [hpl] at hl; simp at hl
        | ok u o =>
          rw [hpl] at hl
          have hlt := fgets_unread_lt hfg
          rw [ih g f1 _ lc1 o out1 (by omega) hl]
          exact fgets_content hfg
      · simp at hl

theorem height_stream {f f1 : FILE} {h : Nat} (hh : height f = .ok (h, f1)) :
    f1 = reset f := by
  unfold height at hh
  split at hh
  · simp at hh
  · rename_i w g hwd
    have hg := width_stream hwd
    split at hh
    · simp at hh
    · rename_i h0 g2 hl
      split at hh
      · simp only [Except.ok.injEq, Prod.mk.injEq] at hh
        have hc := height_loop_content w _ (reset g) g2 0 h0 (Nat.le_refl _) hl
        rw [← hh.2]
        simp only [reset, hc, hg]
      · simp at hh

theorem binary2tga_reset (f : FILE) (out : List Nat) :
    binary2tga (reset f) out = binary2tga f out := rfl

theorem binary2tga_content {f g : FILE} (hc : f.content = g.content) (out : List Nat) :
    binary2tga f out = binary2tga g out := by
  have hr : reset f = reset g := by simp only [reset, hc]
  rw [← binary2tga_reset f, ← binary2tga_reset g, hr]

theorem height_error_of_width_error {f : FILE} {e : Error} (h : width f = .error e) :
    height f = .error e := by
  simp only [height, h]

/-- A failure of the height pass, which includes the width pass, ends
`binary2tga` with the output stream as it was. -/
theorem binary2tga_height_error {f : FILE} {e : Error} (out : List Nat)
    (h : height f = .error e) : binary2tga f out = .die e out := by
  cases hwd : width f with
  | error e1 =>
    rw [height_error_of_width_error hwd] at h
    simp only [Except.error.injEq] at h
    simp only [binary2tga, hwd, h]
  | ok v =>
    obtain ⟨w, g⟩ := v
    have hg := width_stream hwd
    subst hg
    simp only [binary2tga, hwd, height_reset, h]

/-- After successful width and height passes `binary2tga` is its encode loop
on the rewound stream, followed by the check of the line counter. -/
theorem binary2tga_height_ok {f f1 f2 : FILE} {w h : Nat} (out : List Nat)
    (hwd : width f = .ok (w, f1)) (hht : height f = .ok (h, f2)) :
    binary2tga f out =
      match encode_loop w (reset f) 0 (out ++ header w h) with
      | .die e out2 => .die e out2
      | .ok (lc, inp3) out2 =>
        if lc = h then .ok (0, inp3) out2 else .die .assert_lc out2 := by
  have hg := width_stream hwd
  subst hg
  have hg2 := height_stream hht
  subst hg2
  simp only [binary2tga, hwd, height_reset, hht, fwrite_or_die]

/-! ## The encode pass against the height pass -/

theorem write_pixel_die_kind {out out1 : List Nat} {c : Nat} {e : Error}
    (h : write_pixel out c = .die e out1) : e = .invalid_pixel_value c := by
  unfold write_pixel at h
  split at h
  · simp at h
  · split at h
    · simp only [Outcome.die.injEq] at h
      exact h.1.symm
    · simp at h

theorem pixel_loop_die_kind (line : List Nat) (w : Nat) :
    ∀ (n i : Nat) (out out1 : List Nat) (e : Error), w - i = n →
      pixel_loop line w i out = .die e out1 → ∃ c, e = .invalid_pixel_value c := by
  intro n
  induction n with
  | zero =>
    intro i out out1 e hn h
    have hi : ¬ i < w := by omega
    rw [pixel_loop, if_neg hi] at h
    simp at h
  | succ n ih =>
    intro i out out1 e hn h
    have hi : i < w := by omega
    rw [pixel_loop, if_pos hi] at h
    cases hwp : write_pixel out (line.getD i 0) with
    | die e1 o =>
      rw [hwp] at h
      simp only [Outcome.die.injEq] at h
      exact ⟨_, by rw [← h.1]; exact write_pixel_die_kind hwp⟩
    | ok u o =>
      rw [hwp] at h
      exact ih (i + 1) o out1 e (by omega) h

/-- On a stream that the loop of `height` accepts, the loop of `binary2tga`
either dies on an invalid pixel or reads the same number `N` of lines; the
32-bit counter of the first and the 16-bit counter of the second both count
`N`, each modulo its own size. -/
theorem loops_agree (w : Nat) (hw : w < UINT16_MAX) :
    ∀ (n : Nat) (f f1 : FILE) (h0 h1 lc0 : Nat) (out : List Nat),
      (unread f).length ≤ n → h0 < 4294967296 → lc0 < 65536 →
      height_loop w f h0 = .ok (h1, f1) →
      (∃ c o, encode_loop w f lc0 out = .die (.invalid_pixel_value c) o) ∨
      (∃ N lc1 f2 o, encode_loop w f lc0 out = .ok (lc1, f2) o ∧
        h1 = (h0 + N) % 4294967296 ∧ lc1 = (lc0 + N) % 65536) := by
  intro n
  induction n with
  | zero =>
    intro f f1 h0 h1 lc0 out hn hh0 hlc0 hl
    have hu : unread f = [] := List.length_eq_zero.mp (by omega)
    rw [height_loop_none h0 (fgets_nil (w + 2) hu)] at hl
    simp only [Except.ok.injEq, Prod.mk.injEq] at hl
    right
    refine ⟨0, lc0, f, out, encode_loop_none lc0 out (fgets_nil (w + 2) hu), ?_, ?_⟩
    · rw [← hl.1]; omega
    · omega
  | succ n ih =>
    intro f f1 h0 h1 lc0 out hn hh0 hlc0 hl
    rcases hfg : fgets (w + 2) f with ⟨o, g⟩
    cases o with
    | none =>
      rw [height_loop_none h0 hfg] at hl
      simp only [Except.ok.injEq, Prod.mk.injEq] at hl
      right
      refine ⟨0, lc0, g, out, encode_loop_none lc0 out hfg, ?_, ?_⟩
      · rw [← hl.1]; omega
      · omega
    | some line =>
      rw [height_loop_some h0 hfg] at hl
      split at hl
      · simp at hl
      · rename_i hlw
        have hagree := line_width_agree hw (fgets_line_length hfg) hlw
        rw [encode_loop_some lc0 out hfg, if_pos hagree]
        cases hpl : pixel_loop line w 0 out with
        | die e o =>
          obtain ⟨c, hc⟩ := pixel_loop_die_kind line w (w - 0) 0 out o e rfl hpl
          left
          exact ⟨c, o, by rw [hc]⟩
        | ok u o =>
          have hlt := fgets_unread_lt hfg
          rcases ih g f1 ((h0 + 1) % 4294967296) h1 ((lc0 + 1) % 65536) o (by omega)
            (Nat.mod_lt _ (by decide)) (Nat.mod_lt _ (by decide)) hl with hdie | hok
          · left
            exact hdie
          · obtain ⟨N, lc1, f2, o2, henc, hh1, hlc1⟩ := hok
            right
            refine ⟨N + 1, lc1, f2, o2, henc, ?_, ?_⟩
            · rw [hh1]; omega
            · rw [hlc1]; omega

theorem height_loop_of_height {f f1 : FILE} {w h : Nat} {g : FILE}
    (hwd : width f = .ok (w, g)) (hht : height f = .ok (h, f1)) :
    ∃ h1 g1, height_loop w (reset f) 0 = .ok (h1, g1) ∧ h1 < UINT16_MAX ∧ h = h1 % 65536 := by
  have hg := width_stream hwd
  subst hg
  simp only [height, hwd] at hht
  split at hht
  · simp at hht
  · rename_i h1 g1 hl
    split at hht
    · rename_i hlt
      simp only [Except.ok.injEq, Prod.mk.injEq] at hht
      exact ⟨h1, g1, hl, hlt, hht.1.symm⟩
    · simp at hht

/-- After successful width and height passes `binary2tga` either succeeds or
dies on an invalid pixel; the two assertions of the encode pass hold. -/
theorem binary2tga_after_passes {f f1 f2 : FILE} {w h : Nat} (out : List Nat)
    (hwd : width f = .ok (w, f1)) (hht : height f = .ok (h, f2)) :
    (∃ c o, binary2tga f out = .die (.invalid_pixel_value c) o) ∨
    (∃ f3 o, binary2tga f out = .ok (0, f3) o) := by
  obtain ⟨h1, g1, hl, hlt, hh⟩ := height_loop_of_height hwd hht
  have hw := (width_value hwd).2
  rw [binary2tga_height_ok out hwd hht]
  rcases loops_agree w (by simp only [UINT16_MAX]; omega) _ (reset f) g1 0 h1 0
      (out ++ header w h) (Nat.le_refl _) (by decide) (by decide) hl with hdie | hok
  · obtain ⟨c, o, hc⟩ := hdie
    left
    exact ⟨c, o, by rw [hc]⟩
  · obtain ⟨N, lc1, f3, o, henc, hh1, hlc1⟩ := hok
    right
    refine ⟨f3, o, ?_⟩
    rw [henc]
    have hlc : lc1 = h := by
      simp only [UINT16_MAX] at hlt
      omega
    simp only [hlc, if_true]

/-! ## The height pass on accepted rows followed by a rejected line -/

theorem unread_after_text {f : FILE} {a rest : List Nat} (hu : unread f = a ++ rest) :
    unread { f with pos := f.pos + a.length } = rest := by
  rw [unread_advance, hu, List.drop_left]

/-- The loop of `height` runs through terminated rows of width `w` and goes on
with whatever follows them. -/
theorem height_loop_rows (w : Nat) (hw : w < UINT16_MAX) :
    ∀ (cs : List (List Nat × Nat)) (f : FILE) (h : Nat) (rest : List Nat),
      unread f = chunk_text cs ++ rest → (∀ p ∈ cs, is_chunk w p) →
      ∃ h1, height_loop w f h =
        height_loop w { f with pos := f.pos + (chunk_text cs).length } h1 := by
  intro cs
  induction cs with
  | nil =>
    intro f h rest _ _
    exact ⟨h, rfl⟩
  | cons p cs ih =>
    intro f h rest hu hcs
    obtain ⟨r, t⟩ := p
    obtain ⟨hlen, hlf, hnul, ht⟩ := hcs (r, t) (by simp)
    simp only at hlen hlf hnul ht
    subst hlen
    have hu1 : unread f = r ++ t :: (chunk_text cs ++ rest) := by
      rw [hu]
      simp [chunk_text]
    rw [height_loop_some h (fgets_row hu1 hlf), line_width_row r t hnul ht,
      to_size_t_natCast _ hw]
    simp only [ne_eq, not_true_eq_false, if_false]
    obtain ⟨h1, hh1⟩ := ih { f with pos := f.pos + (r.length + 1) } ((h + 1) % 4294967296)
      rest (unread_after_row hu1) (fun q hq => hcs q (by simp [hq]))
    refine ⟨h1, ?_⟩
    rw [hh1]
    simp only [chunk_text_length_cons]
    congr 2
    omega

theorem read_line_eof (k : Nat) : ∀ r : List Nat, LF ∉ r → r.length ≤ k →
    read_line k r = r := by
  induction k with
  | zero =>
    intro r _ hlen
    have : r = [] := List.length_eq_zero.mp (by omega)
    rw [this]
    rfl
  | succ k ih =>
    intro r hr hlen
    cases r with
    | nil => rfl
    | cons b r =>
      have hb : b ≠ LF := fun h => hr (by simp [h])
      have hr1 : LF ∉ r := fun h => hr (by simp [h])
      simp only [read_line, if_neg hb]
      rw [ih r hr1 (by simpa using hlen)]

theorem fgets_eof {f : FILE} {r : List Nat} (w : Nat) (hu : unread f = r) (hne : r ≠ [])
    (hr : LF ∉ r) (hlen : r.length ≤ w + 1) :
    fgets (w + 2) f = (some r, { f with pos := f.pos + r.length }) := by
  have h1 : read_line (w + 2 - 1) (unread f) = r := by
    rw [hu]; exact read_line_eof _ r hr (by omega)
  simp only [fgets, h1, if_neg hne]

theorem c_string_eq (s : List Nat) (hs : 0 ∉ s) : c_string s = s := by
  simp only [c_string, strlen_eq_length s hs, List.take_length]

theorem to_unsigned_eq (n : Nat) (hn : n < UINT16_MAX) : to_unsigned n = n := by
  simp only [to_unsigned, UINT16_MAX] at hn ⊢
  omega

theorem width_of_first_line {f : FILE} {w : Nat} (hw : w < UINT16_MAX)
    (hfirst : first_line_length f.content = w) : width f = .ok (w, reset f) := by
  have := width_ok f (by rw [hfirst]; exact hw)
  rw [this, hfirst]

/-- The height pass dies on the first line that is shorter than the width,
naming the length of that line and the width. -/
theorem height_short_line (w : Nat) (cs : List (List Nat × Nat)) (r rest : List Nat)
    (f : FILE) (hw : w < UINT16_MAX) (hf : f.content = chunk_text cs ++ (r ++ LF :: rest))
    (hcs : ∀ p ∈ cs, is_chunk w p) (hfirst : first_line_length f.content = w)
    (hlen : r.length < w) (hlf : LF ∉ r) (hnul : 0 ∉ r) :
    height f = .error (.invalid_line_width r.length w (r ++ [LF])) := by
  have hu : unread (reset (reset f)) = chunk_text cs ++ (r ++ LF :: rest) := by
    simp [unread, reset, hf]
  obtain ⟨h1, hh1⟩ := height_loop_rows w hw cs (reset (reset f)) 0 _ hu hcs
  have hu2 := unread_after_text hu
  have hnul1 : (0 : Nat) ∉ r ++ [LF] := by
    simp only [List.mem_append, List.mem_singleton, not_or]
    exact ⟨hnul, by decide⟩
  have hlw : to_size_t (line_width (r ++ [LF])) = r.length := by
    rw [line_width_row r LF hnul (by decide)]
    exact to_size_t_natCast _ (by omega)
  have hloop : height_loop w (reset (reset f)) 0 =
      .error (.invalid_line_width r.length w (r ++ [LF])) := by
    rw [hh1, height_loop_some h1 (fgets_short w hu2 hlf (by omega)), hlw,
      if_pos (by omega), to_unsigned_eq _ (by omega), to_unsigned_eq _ hw,
      c_string_eq _ hnul1]
  simp only [height, width_of_first_line hw hfirst, hloop]

/-- The height pass dies on a last line of full width that has no
terminator: its `line_width` is one less than the width. -/
theorem height_unterminated (w : Nat) (cs : List (List Nat × Nat)) (r : List Nat)
    (f : FILE) (hw : w < UINT16_MAX) (hw1 : 1 ≤ w) (hf : f.content = chunk_text cs ++ r)
    (hcs : ∀ p ∈ cs, is_chunk w p) (hfirst : first_line_length f.content = w)
    (hlen : r.length = w) (hlf : LF ∉ r) (hnul : 0 ∉ r) :
    height f = .error (.invalid_line_width (w - 1) w r) := by
  have hu : unread (reset (reset f)) = chunk_text cs ++ r := by
    simp [unread, reset, hf]
  obtain ⟨h1, hh1⟩ := height_loop_rows w hw cs (reset (reset f)) 0 _ hu hcs
  have hu2 := unread_after_text hu
  have hne : r ≠ [] := by
    intro h0
    rw [h0] at hlen
    simp at hlen
    omega
  have hlw : to_size_t (line_width r) = w - 1 := by
    simp only [line_width, strlen_eq_length r hnul, hlen, to_size_t]
    simp only [UINT16_MAX] at hw
    omega
  have hloop : height_loop w (reset (reset f)) 0 =
      .error (.invalid_line_width (w - 1) w r) := by
    rw [hh1, height_loop_some h1 (fgets_eof w hu2 hne hlf (by omega)), hlw,
      if_pos (by omega), to_unsigned_eq _ (by omega), to_unsigned_eq _ hw,
      c_string_eq _ hnul]
  simp only [height, width_of_first_line hw hfirst, hloop]

/-- The height pass on a text made of terminated rows of width `w` returns
their number and rewinds the stream. -/
theorem height_chunks (w : Nat) (cs : List (List Nat × Nat)) (f : FILE)
    (hw : w < UINT16_MAX) (hh : cs.length < UINT16_MAX)
    (hf : f.content = chunk_text cs) (hcs : ∀ p ∈ cs, is_chunk w p)
    (hfirst : first_line_length f.content = w) :
    height f = .ok (cs.length, reset f) := by
  have hh1 : cs.length < 65535 := hh
  have hloop := height_loop_chunks w hw cs (reset (reset f)) 0
    (by simp [unread, reset, hf]) hcs (by omega)
  simp only [height, width_of_first_line hw hfirst, hloop, Nat.zero_add]
  have hmod : cs.length % 65536 = cs.length := Nat.mod_eq_of_lt (by omega)
  rw [if_pos hh, hmod]
  rfl

theorem first_line_length_no_eol (r : List Nat) (hr : ∀ c ∈ r, ¬ (c = LF ∨ c = CR)) :
    first_line_length r = r.length := by
  induction r with
  | nil => rfl
  | cons c r ih =>
    rw [first_line_length_cons _ (hr c (by simp)), ih (fun d hd => hr d (by simp [hd]))]
    rfl

/-! ## Results of the whole conversion -/

theorem binary2tga_ok_content {f f1 : FILE} {r : Int} {out o : List Nat}
    (h : binary2tga f out = .ok (r, f1) o) : f1.content = f.content := by
  cases hht : height f with
  | error e =>
    rw [binary2tga_height_error out hht] at h
    simp at h
  | ok v =>
    obtain ⟨hv, g2⟩ := v
    cases hwd : width f with
    | error e =>
      rw [height_error_of_width_error hwd] at hht
      simp at hht
    | ok u =>
      obtain ⟨w, g1⟩ := u
      rw [binary2tga_height_ok out hwd hht] at h
      cases henc : encode_loop w (reset f) 0 (out ++ header w hv) with
      | die e o1 =>
        rw [henc] at h
        simp at h
      | ok u1 o1 =>
        obtain ⟨lc, f3⟩ := u1
        rw [henc] at h
        simp only at h
        split at h
        · simp only [Outcome.ok.injEq, Prod.mk.injEq] at h
          rw [← h.1.2]
          exact encode_loop_content w _ (reset f) f3 0 lc _ o1 (Nat.le_refl _) henc
        · simp at h

/-- After successful width and height passes the encode loop either dies on
an invalid pixel or ends with its line counter equal to the height. -/
theorem encode_after_passes {f f1 f2 : FILE} {w h : Nat} (out : List Nat)
    (hwd : width f = .ok (w, f1)) (hht : height f = .ok (h, f2)) :
    (∃ c o, encode_loop w (reset f) 0 out = .die (.invalid_pixel_value c) o) ∨
    (∃ f3 o, encode_loop w (reset f) 0 out = .ok (h, f3) o) := by
  obtain ⟨h1, g1, hl, hlt, hh⟩ := height_loop_of_height hwd hht
  have hw := (width_value hwd).2
  rcases loops_agree w (by simp only [UINT16_MAX]; omega) _ (reset f) g1 0 h1 0
      out (Nat.le_refl _) (by decide) (by decide) hl with hdie | hok
  · left
    exact hdie
  · obtain ⟨N, lc1, f3, o, henc, hh1, hlc1⟩ := hok
    right
    refine ⟨f3, o, ?_⟩
    have hlc : lc1 = h := by
      simp only [UINT16_MAX] at hlt
      omega
    rw [henc, hlc]

theorem chunk_symbols_zip : ∀ (rows : List (List Nat)) (ts : List Nat),
    ts.length = rows.length → chunk_symbols (rows.zip ts) = grid_symbols rows := by
  intro rows
  induction rows with
  | nil => intro ts _; rfl
  | cons r rows ih =>
    intro ts hlen
    cases ts with
    | nil => simp at hlen
    | cons t ts =>
      have h1 := ih ts (by simpa using hlen)
      rw [List.zip_cons_cons]
      show r ++ chunk_symbols (rows.zip ts) = r ++ grid_symbols rows
      rw [h1]

theorem chunk_text_bytes (bytes : List Nat) :
    chunk_text (bytes.map (fun b => (([] : List Nat), b))) = bytes := by
  induction bytes with
  | nil => rfl
  | cons b bytes ih => simp only [List.map_cons, chunk_text, List.nil_append, ih]

theorem chunk_symbols_bytes (bytes : List Nat) :
    chunk_symbols (bytes.map (fun b => (([] : List Nat), b))) = [] := by
  induction bytes with
  | nil => rfl
  | cons b bytes ih => simp only [List.map_cons, chunk_symbols, List.nil_append, ih]

/-! ## Unterminated last rows, foreign terminators, empty first lines -/

theorem first_line_length_unterminated {w : Nat} (init : List (List Nat)) (last : List Nat)
    (hv : valid_grid w (init ++ [last])) :
    first_line_length (grid_text init ++ last) = w := by
  have hsym : ∀ r ∈ init ++ [last], ∀ c ∈ r, ¬ (c = LF ∨ c = CR) := by
    intro r hr c hc
    have := is_symbol_ne ((hv r hr).2 c hc)
    simp only [not_or]
    exact ⟨this.1, this.2.1⟩
  cases init with
  | nil =>
    simp only [grid_text, List.nil_append]
    rw [first_line_length_no_eol last (hsym last (by simp)), (hv last (by simp)).1]
  | cons r init =>
    have htext : grid_text (r :: init) ++ last = r ++ LF :: (grid_text init ++ last) := by
      simp [grid_text]
    rw [htext, first_line_length_row r LF _ (hsym r (by simp)) (Or.inl rfl), (hv r (by simp)).1]

/-- Conversion of a grid whose last row has no terminator: the height pass
dies on that row and nothing is written. -/
theorem binary2tga_unterminated (w : Nat) (init : List (List Nat)) (last : List Nat)
    (hv : valid_grid w (init ++ [last])) (hw1 : 1 ≤ w) (hw : w < UINT16_MAX) :
    height (fopen (grid_text init ++ last)) = .error (.invalid_line_width (w - 1) w last) ∧
    binary2tga (fopen (grid_text init ++ last)) [] =
      .die (.invalid_line_width (w - 1) w last) [] := by
  have hvi : valid_grid w init := fun r hr => hv r (by simp [hr])
  obtain ⟨hlen, hsym⟩ := hv last (by simp)
  have hh : height (fopen (grid_text init ++ last)) =
      .error (.invalid_line_width (w - 1) w last) := by
    refine height_unterminated w (init.map (fun r => (r, LF))) last _ hw hw1
      (by simp [fopen, grid_text_eq_chunk_text])
      (valid_grid_is_chunk hvi (show LF ≠ 0 by decide))
      (first_line_length_unterminated init last hv) hlen
      (fun h => (is_symbol_ne (hsym _ h)).1 rfl) (fun h => (is_symbol_ne (hsym _ h)).2.2 rfl)
  exact ⟨hh, binary2tga_height_error [] hh⟩

theorem zip_is_chunk {w : Nat} {rows : List (List Nat)} {ts : List Nat}
    (hv : valid_grid w rows) (hts : ∀ t ∈ ts, t ≠ 0) :
    ∀ p ∈ rows.zip ts, is_chunk w p := by
  intro p hp
  obtain ⟨r, t⟩ := p
  obtain ⟨hr, ht⟩ := List.of_mem_zip hp
  obtain ⟨hlen, hsym⟩ := hv r hr
  exact ⟨hlen, fun h => (is_symbol_ne (hsym _ h)).1 rfl,
    fun h => (is_symbol_ne (hsym _ h)).2.2 rfl, hts t ht⟩

theorem first_line_length_zip {w : Nat} {rows : List (List Nat)} {ts : List Nat}
    (hv : valid_grid w rows) (hne : rows ≠ []) (hlen : ts.length = rows.length)
    (hfirst : ∀ t0, ts.head? = some t0 → t0 = LF ∨ t0 = CR) :
    first_line_length (chunk_text (rows.zip ts)) = w := by
  cases rows with
  | nil => exact absurd rfl hne
  | cons r rows =>
    cases ts with
    | nil => simp at hlen
    | cons t ts =>
      obtain ⟨hrl, hsym⟩ := hv r (by simp)
      rw [List.zip_cons_cons]
      show first_line_length (r ++ t :: chunk_text (rows.zip ts)) = w
      rw [first_line_length_row r t _ (fun c hc => ?_) (hfirst t rfl), hrl]
      have := is_symbol_ne (hsym c hc)
      simp only [not_or]
      exact ⟨this.1, this.2.1⟩

/-- Conversion of a valid grid whose rows end with terminator bytes `ts`, the
first a line ending and none NUL: the same output as with line feeds. -/
theorem binary2tga_terminators (w : Nat) (rows : List (List Nat)) (ts : List Nat)
    (hv : valid_grid w rows) (hne : rows ≠ []) (hw : w < UINT16_MAX)
    (hh : rows.length < UINT16_MAX) (hlen : ts.length = rows.length)
    (hts : ∀ t ∈ ts, t ≠ 0) (hfirst : ∀ t0, ts.head? = some t0 → t0 = LF ∨ t0 = CR) :
    binary2tga (fopen (chunk_text (rows.zip ts))) [] =
      .ok (0, { content := chunk_text (rows.zip ts),
                pos := (chunk_text (rows.zip ts)).length })
        (header w rows.length ++ records (grid_symbols rows)) := by
  have hzl : (rows.zip ts).length = rows.length := by
    rw [List.length_zip, hlen, Nat.min_self]
  have h := binary2tga_chunks w (rows.zip ts) (fopen (chunk_text (rows.zip ts))) []
    hw (by rw [hzl]; exact hh) rfl (zip_is_chunk hv hts)
    (first_line_length_zip hv hne hlen hfirst)
  rw [h, chunk_symbols_zip rows ts hlen, hzl, write_pixels_symbols _ _ (grid_symbols_all hv)]
  simp

theorem bytes_is_chunk {bytes : List Nat} (hnul : 0 ∉ bytes) :
    ∀ p ∈ bytes.map (fun b => (([] : List Nat), b)), is_chunk 0 p := by
  intro p hp
  simp only [List.mem_map] at hp
  obtain ⟨b, hb, rfl⟩ := hp
  exact ⟨rfl, by simp, by simp, fun h => hnul (h ▸ hb)⟩

theorem first_line_length_eol_first {bytes : List Nat}
    (hfirst : ∀ b, bytes.head? = some b → b = LF ∨ b = CR) : first_line_length bytes = 0 := by
  cases bytes with
  | nil => rfl
  | cons b bytes => exact first_line_length_cons_eol bytes (hfirst b rfl)

/-! ## Claims -/

/-- C1: for every valid grid of h rows (1 ≤ h ≤ 65534), each row being exactly
w symbols (1 ≤ w ≤ 65534) from '0' and '1' and ended by a single LF,
`binary2tga` succeeds; its output starts with `header w h`, holds w*h records
of 4 bytes after it, and the record at index y*w + x is FF FF FF FF when the
symbol at column x of row y is '1' and 00 00 00 FF when it is '0'. -/
theorem C1_binary2tga_valid_grid (w : Nat) (rows : List (List Nat))
    (hv : valid_grid w rows) (hw1 : 1 ≤ w) (hw : w ≤ 65534)
    (hh1 : 1 ≤ rows.length) (hh : rows.length ≤ 65534) :
    ∃ inp1 out, binary2tga (fopen (grid_text rows)) [] = .ok (0, inp1) out ∧
      out.take 18 = header w rows.length ∧
      out.length = 18 + 4 * (w * rows.length) ∧
      ∀ y x : Nat, y < rows.length → x < w →
        ((rows.getD y []).getD x 0 = ON_CHAR →
          (out.drop (18 + 4 * (y * w + x))).take 4 = [0xFF, 0xFF, 0xFF, 0xFF]) ∧
        ((rows.getD y []).getD x 0 = OFF_CHAR →
          (out.drop (18 + 4 * (y * w + x))).take 4 = [0x00, 0x00, 0x00, 0xFF]) := by
  have hne : rows ≠ [] := by
    intro h0
    rw [h0] at hh1
    simp at hh1
  refine ⟨_, _, binary2tga_grid w rows hv hne (by simp only [UINT16_MAX]; omega)
    (by simp only [UINT16_MAX]; omega), ?_, ?_, ?_⟩
  · rw [← header_length w rows.length, List.take_left]
  · rw [List.length_append, header_length, records_length, grid_symbols_length hv]
  · intro y x hy hx
    have hidx : y * w + x < (grid_symbols rows).length := by
      rw [grid_symbols_length hv]
      calc y * w + x < y * w + w := by omega
        _ = w * (y + 1) := by ring
        _ ≤ w * rows.length := Nat.mul_le_mul_left w hy
    have hslice : ((header w rows.length ++ records (grid_symbols rows)).drop
        (18 + 4 * (y * w + x))).take 4 = record ((rows.getD y []).getD x 0) := by
      rw [← header_length w rows.length, List.drop_append,
        records_drop_take _ _ hidx, grid_symbols_getD rows hv y x hy hx]
    rw [hslice]
    constructor
    · intro h1
      rw [h1]
      rfl
    · intro h0
      rw [h0]
      rfl

/-- Witness of C1 on the input "01\n10\n" of the specification: the header
declares width 2, height 2, depth 32, descriptor 0x20 and is followed by the
records of 0, 1, 1, 0. -/
theorem C1_binary2tga_valid_grid_witness :
    valid_grid 2 [[48, 49], [49, 48]] ∧
    (∃ inp1 out, binary2tga (fopen (grid_text [[48, 49], [49, 48]])) [] = .ok (0, inp1) out ∧
      out.take 18 = header 2 2 ∧ out.length = 18 + 4 * (2 * 2) ∧
      ∀ y x : Nat, y < 2 → x < 2 →
        (([[48, 49], [49, 48]].getD y []).getD x 0 = ON_CHAR →
          (out.drop (18 + 4 * (y * 2 + x))).take 4 = [0xFF, 0xFF, 0xFF, 0xFF]) ∧
        (([[48, 49], [49, 48]].getD y []).getD x 0 = OFF_CHAR →
          (out.drop (18 + 4 * (y * 2 + x))).take 4 = [0x00, 0x00, 0x00, 0xFF])) ∧
    grid_text [[48, 49], [49, 48]] = [48, 49, 10, 49, 48, 10] ∧
    binary2tga (fopen [48, 49, 10, 49, 48, 10]) [] =
      .ok (0, { content := [48, 49, 10, 49, 48, 10], pos := 6 })
        [0, 0, 2, 0, 0, 0, 0, 0, 0, 0, 0, 0, 2, 0, 2, 0, 32, 0x20,
          0, 0, 0, 0xFF, 0xFF, 0xFF, 0xFF, 0xFF, 0xFF, 0xFF, 0xFF, 0xFF, 0, 0, 0, 0xFF] :=
  ⟨by decide,
   C1_binary2tga_valid_grid 2 [[48, 49], [49, 48]] (by decide) (by decide) (by decide)
     (by decide) (by decide),
   by decide,
   binary2tga_grid 2 [[48, 49], [49, 48]] (by decide) (by decide) (by decide) (by decide)⟩

/-- C2: for every 16-bit width and height, `header width height` is exactly
the 18 bytes 0, 0, 2, 0 0 0 0 0, 0 0, 0 0, width mod 256, width div 256,
height mod 256, height div 256, 32, 0x20. -/
theorem C2_header_bytes (width height : Nat) (hw : width < 65536) (hh : height < 65536) :
    header width height =
      [0, 0, 2, 0, 0, 0, 0, 0, 0, 0, 0, 0,
        width % 256, width / 256, height % 256, height / 256, 32, 0x20] :=
  header_eq width height hw hh

/-- Witness of C2 at width 0x1234 and height 0xABCD. -/
theorem C2_header_bytes_witness :
    (0x1234 < 65536 ∧ 0xABCD < 65536) ∧
    header 0x1234 0xABCD =
      [0, 0, 2, 0, 0, 0, 0, 0, 0, 0, 0, 0, 0x34, 0x12, 0xCD, 0xAB, 32, 0x20] :=
  ⟨by decide, C2_header_bytes 0x1234 0xABCD (by decide) (by decide)⟩

/-- Counterexample to C3 as stated: a valid grid of width 65535 and height 1,
and a valid grid of width 1 and height 65535, are both rejected by the bound
assertions before any byte is written. -/
theorem C3_output_size_counterexample :
    (valid_grid 65535 (List.replicate 1 (List.replicate 65535 OFF_CHAR)) ∧
      (List.replicate 1 (List.replicate 65535 OFF_CHAR)).length = 1 ∧
      binary2tga (fopen (grid_text (List.replicate 1 (List.replicate 65535 OFF_CHAR)))) [] =
        .die .assert_width []) ∧
    (valid_grid 1 (List.replicate 65535 (List.replicate 1 OFF_CHAR)) ∧
      (List.replicate 65535 (List.replicate 1 OFF_CHAR)).length = 65535 ∧
      binary2tga (fopen (grid_text (List.replicate 65535 (List.replicate 1 OFF_CHAR)))) [] =
        .die .assert_height []) := by
  refine ⟨⟨valid_grid_replicate _ _ _ (Or.inl rfl), List.length_replicate _ _, ?_⟩,
    ⟨valid_grid_replicate _ _ _ (Or.inl rfl), List.length_replicate _ _, ?_⟩⟩
  · apply binary2tga_assert_width
    have hv := valid_grid_replicate 65535 1 OFF_CHAR (Or.inl rfl)
    simp only [fopen]
    rw [first_line_length_grid hv (List.cons_ne_nil _ _)]
    exact Nat.le_refl _
  · exact binary2tga_grid_assert_height 1 _ (valid_grid_replicate _ _ _ (Or.inl rfl))
      (by decide) (by rw [List.length_replicate]; exact Nat.le_refl _)
      (by rw [List.length_replicate]; decide)

/-- C3 (amended): for every valid grid with width w in [1, 65534] and height h
in [1, 65534], `binary2tga` succeeds and writes exactly 18 + 4*w*h bytes. -/
theorem C3_output_size (w : Nat) (rows : List (List Nat))
    (hv : valid_grid w rows) (hw1 : 1 ≤ w) (hw : w ≤ 65534)
    (hh1 : 1 ≤ rows.length) (hh : rows.length ≤ 65534) :
    ∃ inp1 out, binary2tga (fopen (grid_text rows)) [] = .ok (0, inp1) out ∧
      out.length = 18 + 4 * w * rows.length := by
  have hne : rows ≠ [] := by
    intro h0
    rw [h0] at hh1
    simp at hh1
  refine ⟨_, _, binary2tga_grid w rows hv hne (by simp only [UINT16_MAX]; omega)
    (by simp only [UINT16_MAX]; omega), ?_⟩
  rw [List.length_append, header_length, records_length, grid_symbols_length hv, Nat.mul_assoc]

/-- Witness of C3 (amended) on a grid of width 3 and height 2. -/
theorem C3_output_size_witness :
    valid_grid 3 [[48, 49, 48], [49, 49, 49]] ∧
    ∃ inp1 out, binary2tga (fopen (grid_text [[48, 49, 48], [49, 49, 49]])) [] =
        .ok (0, inp1) out ∧ out.length = 18 + 4 * 3 * 2 :=
  ⟨by decide,
   C3_output_size 3 [[48, 49, 48], [49, 49, 49]] (by decide) (by decide) (by decide)
     (by decide) (by decide)⟩

/-- C4: whenever `binary2tga` succeeds, decoding output bytes 12-13 and 14-15
as little-endian 16-bit integers gives exactly the width and height that
`width` and `height` return for the input; the width is the untruncated
number of bytes before the first line ending, and both values are below
65535. -/
theorem C4_header_round_trip (inp : FILE) (r : Int × FILE) (out : List Nat)
    (hok : binary2tga inp [] = .ok r out) :
    ∃ w h inp1 inp2, width inp = .ok (w, inp1) ∧ height inp = .ok (h, inp2) ∧
      decode_u16 out 12 = w ∧ decode_u16 out 14 = h ∧
      w = first_line_length inp.content ∧ w < 65535 ∧ h < 65535 := by
  unfold binary2tga at hok
  split at hok
  · simp at hok
  · rename_i w inp1 hwd
    have hinp1 := width_stream hwd
    split at hok
    · simp at hok
    · rename_i h inp2 hht
      rw [hinp1, height_reset] at hht
      simp only [fwrite_or_die, List.nil_append] at hok
      split at hok
      · simp at hok
      · rename_i lc inp3 out2 henc
        obtain ⟨extra, hextra⟩ := encode_loop_extends w _ inp2 0 _ out2 (lc, inp3)
          (Nat.le_refl _) henc
        split at hok
        · simp only [Outcome.ok.injEq] at hok
          have hdec := decode_header w h (width_eq_ok hwd).1 (height_eq_ok hht).1 extra
          have hwv := width_value hwd
          rw [← hok.2, hextra]
          exact ⟨w, h, inp1, inp2, hwd, hht, hdec.1, hdec.2, hwv.1, hwv.2,
            (height_eq_ok hht).2⟩
        · simp at hok

/-- Witness of C4 on the input "01\\n10\\n". -/
theorem C4_header_round_trip_witness :
    binary2tga (fopen (grid_text [[48, 49], [49, 48]])) [] =
      .ok (0, { content := grid_text [[48, 49], [49, 48]], pos := 6 })
        (header 2 2 ++ records [48, 49, 49, 48]) ∧
    ∃ w h inp1 inp2, width (fopen (grid_text [[48, 49], [49, 48]])) = .ok (w, inp1) ∧
      height (fopen (grid_text [[48, 49], [49, 48]])) = .ok (h, inp2) ∧
      decode_u16 (header 2 2 ++ records [48, 49, 49, 48]) 12 = w ∧
      decode_u16 (header 2 2 ++ records [48, 49, 49, 48]) 14 = h ∧
      w = first_line_length (fopen (grid_text [[48, 49], [49, 48]])).content ∧
      w < 65535 ∧ h < 65535 :=
  ⟨binary2tga_grid 2 [[48, 49], [49, 48]] (by decide) (by decide) (by decide) (by decide),
   C4_header_round_trip (fopen (grid_text [[48, 49], [49, 48]])) _ _
     (binary2tga_grid 2 [[48, 49], [49, 48]] (by decide) (by decide) (by decide) (by decide))⟩

/-- C5: for every character c and output stream, `write_pixel` appends exactly
FF FF FF FF when c is '1', exactly 00 00 00 FF when c is '0', and for every
other c it dies with the invalid-pixel error carrying c, the stream unchanged;
so whatever it appends is one of those two records. -/
theorem C5_write_pixel (out : List Nat) (c : Nat) :
    (c = ON_CHAR → write_pixel out c = .ok () (out ++ [0xFF, 0xFF, 0xFF, 0xFF])) ∧
    (c = OFF_CHAR → write_pixel out c = .ok () (out ++ [0x00, 0x00, 0x00, 0xFF])) ∧
    (c ≠ ON_CHAR → c ≠ OFF_CHAR → write_pixel out c = .die (.invalid_pixel_value c) out) ∧
    (∀ out1 : List Nat, write_pixel out c = .ok () out1 →
      out1 = out ++ [0xFF, 0xFF, 0xFF, 0xFF] ∨ out1 = out ++ [0x00, 0x00, 0x00, 0xFF]) := by
  refine ⟨?_, ?_, ?_, ?_⟩
  · intro h
    subst h
    rfl
  · intro h
    subst h
    rfl
  · intro h1 h0
    exact write_pixel_invalid out (fun hs => hs.elim h0 h1)
  · intro out1 h
    by_cases hs : is_symbol c
    · rw [write_pixel_symbol out hs] at h
      simp only [Outcome.ok.injEq, true_and] at h
      rcases hs with h0 | h1
      · right; rw [← h, h0]; rfl
      · left; rw [← h, h1]; rfl
    · rw [write_pixel_invalid out hs] at h
      simp at h

/-- Witness of C5 at the characters '1', '0' and '2' on a stream holding one
byte. -/
theorem C5_write_pixel_witness :
    write_pixel [7] 49 = .ok () [7, 0xFF, 0xFF, 0xFF, 0xFF] ∧
    write_pixel [7] 48 = .ok () [7, 0x00, 0x00, 0x00, 0xFF] ∧
    write_pixel [7] 50 = .die (.invalid_pixel_value 50) [7] :=
  ⟨(C5_write_pixel [7] 49).1 rfl, (C5_write_pixel [7] 48).2.1 rfl,
   (C5_write_pixel [7] 50).2.2.1 (by decide) (by decide)⟩

/-- C6 fails on the code: the input "0\n000\n" is made of LF-terminated lines
of lengths 1 and 3, yet `binary2tga` succeeds, reading the second line as two
rows and writing a header for a 1 by 3 image with three records; likewise
"\n0\n", lines of lengths 0 and 1, is converted to a 0 by 3 image. -/
theorem C6_mismatched_rows_accepted :
    (grid_text [[48], [48, 48, 48]] = [48, 10, 48, 48, 48, 10] ∧
      binary2tga (fopen [48, 10, 48, 48, 48, 10]) [] =
        .ok (0, { content := [48, 10, 48, 48, 48, 10], pos := 6 })
          [0, 0, 2, 0, 0, 0, 0, 0, 0, 0, 0, 0, 1, 0, 3, 0, 32, 0x20,
            0, 0, 0, 0xFF, 0, 0, 0, 0xFF, 0, 0, 0, 0xFF]) ∧
    (grid_text [[], [48]] = [10, 48, 10] ∧
      binary2tga (fopen [10, 48, 10]) [] =
        .ok (0, { content := [10, 48, 10], pos := 3 })
          [0, 0, 2, 0, 0, 0, 0, 0, 0, 0, 0, 0, 0, 0, 3, 0, 32, 0x20]) :=
  ⟨⟨by decide,
    binary2tga_chunks 1 [([48], 10), ([48], 48), ([48], 10)] (fopen [48, 10, 48, 48, 48, 10]) []
      (by decide) (by decide) (by decide) (by decide) (by decide)⟩,
   ⟨by decide,
    binary2tga_chunks 0 [([], 10), ([], 48), ([], 10)] (fopen [10, 48, 10]) []
      (by decide) (by decide) (by decide) (by decide) (by decide)⟩⟩

/-- Counterexample to C7 as stated: the input "02\n0\n" has the character '2'
in its first line, but the height pass dies first on the width 1 of the second
line, so the failure is not the invalid-pixel one. -/
theorem C7_invalid_symbol_counterexample :
    binary2tga (fopen [48, 50, 10, 48, 10]) [] =
      .die (.invalid_line_width 1 2 [48, 10]) [] ∧
    ∀ (c : Nat) (out : List Nat),
      binary2tga (fopen [48, 50, 10, 48, 10]) [] ≠ .die (.invalid_pixel_value c) out := by
  have h : binary2tga (fopen [48, 50, 10, 48, 10]) [] =
      .die (.invalid_line_width 1 2 [48, 10]) [] := by
    simp [binary2tga, width, width_loop, fgetc, unread, reset, fopen, height, height_loop,
      fgets, read_line, LF, CR, UINT16_MAX, to_size_t, to_unsigned, c_string, line_width,
      strlen]
  refine ⟨h, fun c out => ?_⟩
  rw [h]
  simp

/-- C7 (amended): for every grid of h rows (1 ≤ h ≤ 65534) of exactly w bytes
(1 ≤ w ≤ 65534), each row ended by a single LF and free of NUL, CR and LF,
in which some byte is not '0' or '1', `binary2tga` dies with the invalid-pixel
error carrying the first such byte in row-major order, having written the
header and the records of the symbols before it. -/
theorem C7_invalid_symbol (w : Nat) (rows : List (List Nat))
    (hv : raw_grid w rows) (hw1 : 1 ≤ w) (hw : w ≤ 65534)
    (hh1 : 1 ≤ rows.length) (hh : rows.length ≤ 65534)
    (hbad : ∃ c ∈ grid_symbols rows, ¬ is_symbol c) :
    ∃ good bad rest, grid_symbols rows = good ++ bad :: rest ∧
      (∀ c ∈ good, is_symbol c) ∧ ¬ is_symbol bad ∧
      binary2tga (fopen (grid_text rows)) [] =
        .die (.invalid_pixel_value bad) (header w rows.length ++ records good) := by
  have hne : rows ≠ [] := by
    intro h0
    rw [h0] at hh1
    simp at hh1
  obtain ⟨good, bad, rest, heq, hg, hb⟩ := first_invalid_split _ hbad
  refine ⟨good, bad, rest, heq, hg, hb, ?_⟩
  rw [binary2tga_raw_grid w rows hv hne (by simp only [UINT16_MAX]; omega)
    (by simp only [UINT16_MAX]; omega), heq, write_pixels_invalid good bad rest _ hg hb]

/-- Witness of C7 (amended) on the input "01\n2x\n". -/
theorem C7_invalid_symbol_witness :
    raw_grid 2 [[48, 49], [50, 120]] ∧
    (∃ c ∈ grid_symbols [[48, 49], [50, 120]], ¬ is_symbol c) ∧
    ∃ good bad rest, grid_symbols [[48, 49], [50, 120]] = good ++ bad :: rest ∧
      (∀ c ∈ good, is_symbol c) ∧ ¬ is_symbol bad ∧
      binary2tga (fopen (grid_text [[48, 49], [50, 120]])) [] =
        .die (.invalid_pixel_value bad) (header 2 2 ++ records good) :=
  ⟨by decide, ⟨50, by decide, by decide⟩,
   C7_invalid_symbol 2 [[48, 49], [50, 120]] (by decide) (by decide) (by decide)
     (by decide) (by decide) ⟨50, by decide, by decide⟩⟩

/-- C8 fails on the code: the grid "01", "10" with CR LF line endings is
rejected with the invalid-line-width error 0 against 2 and no byte written,
while the same grid with LF line endings is converted. -/
theorem C8_crlf_rejected :
    crlf_text [[48, 49], [49, 48]] = [48, 49, 13, 10, 49, 48, 13, 10] ∧
    binary2tga (fopen [48, 49, 13, 10, 49, 48, 13, 10]) [] =
      .die (.invalid_line_width 0 2 [10]) [] ∧
    binary2tga (fopen (grid_text [[48, 49], [49, 48]])) [] =
      .ok (0, { content := [48, 49, 10, 49, 48, 10], pos := 6 })
        [0, 0, 2, 0, 0, 0, 0, 0, 0, 0, 0, 0, 2, 0, 2, 0, 32, 0x20,
          0, 0, 0, 0xFF, 0xFF, 0xFF, 0xFF, 0xFF, 0xFF, 0xFF, 0xFF, 0xFF, 0, 0, 0, 0xFF] :=
  ⟨by decide,
   binary2tga_crlf 2 [[48, 49], [49, 48]] (by decide) (by decide) (by decide) (by decide),
   binary2tga_grid 2 [[48, 49], [49, 48]] (by decide) (by decide) (by decide) (by decide)⟩

/-- C9: for the empty input `binary2tga` succeeds and the output is exactly the
18 bytes of `header 0 0`, which declares width 0 and height 0; no record
follows. -/
theorem C9_empty_input :
    binary2tga (fopen []) [] = .ok (0, fopen []) (header 0 0) ∧
    header 0 0 = [0, 0, 2, 0, 0, 0, 0, 0, 0, 0, 0, 0, 0, 0, 0, 0, 32, 0x20] ∧
    (header 0 0).length = 18 ∧
    decode_u16 (header 0 0) 12 = 0 ∧ decode_u16 (header 0 0) 14 = 0 :=
  ⟨binary2tga_chunks 0 [] (fopen []) [] (by decide) (by decide) rfl (by decide) (by decide),
   by decide, by decide, by decide, by decide⟩

/-- C10: with n the number of bytes before the first CR or LF of the input (or
before its end when there is none), `width` returns n whenever n ≤ 65534 and
fails its bound assertion whenever n ≥ 65535. -/
theorem C10_width_bound (inp : FILE) :
    (first_line_length inp.content ≤ 65534 →
      width inp = .ok (first_line_length inp.content, reset inp)) ∧
    (65535 ≤ first_line_length inp.content → width inp = .error .assert_width) :=
  ⟨fun h => width_ok inp (by simp only [UINT16_MAX]; omega), fun h => width_assert inp h⟩

/-- Witness of C10: a first line of 2 bytes, an unterminated line of 65534
bytes, and a line of 65535 bytes. -/
theorem C10_width_bound_witness :
    width (fopen [48, 49, 10, 49, 48, 10]) = .ok (2, fopen [48, 49, 10, 49, 48, 10]) ∧
    width (fopen (List.replicate 65534 OFF_CHAR)) =
      .ok (65534, fopen (List.replicate 65534 OFF_CHAR)) ∧
    width (fopen (List.replicate 65535 OFF_CHAR)) = .error .assert_width := by
  refine ⟨(C10_width_bound (fopen [48, 49, 10, 49, 48, 10])).1 (by decide), ?_, ?_⟩
  · have h := (C10_width_bound (fopen (List.replicate 65534 OFF_CHAR))).1
      (by simp only [fopen, first_line_length_replicate]; exact Nat.le_refl _)
    simp only [fopen, first_line_length_replicate] at h
    exact h
  · exact (C10_width_bound (fopen (List.replicate 65535 OFF_CHAR))).2
      (by simp only [fopen, first_line_length_replicate]; exact Nat.le_refl _)

/-- C11: the result of `binary2tga` (success or the failure, the bytes
written and the stream left behind) depends only on the content of the input
stream, not on its position; so converting again the stream a successful
conversion leaves behind gives the same result, byte for byte. -/
theorem C11_idempotence (f g : FILE) (out : List Nat) (hc : f.content = g.content) :
    binary2tga f out = binary2tga g out ∧
    ∀ (r : Int) (f1 : FILE) (o : List Nat), binary2tga f out = .ok (r, f1) o →
      f1.content = f.content ∧ binary2tga f1 out = .ok (r, f1) o := by
  refine ⟨binary2tga_content hc out, fun r f1 o h => ?_⟩
  have hc1 := binary2tga_ok_content h
  exact ⟨hc1, by rw [binary2tga_content hc1 out]; exact h⟩

/-- Witness of C11 on the content "01\n10\n" read from position 0 and from
position 4. -/
theorem C11_idempotence_witness :
    binary2tga { content := [48, 49, 10, 49, 48, 10], pos := 0 } [] =
      binary2tga { content := [48, 49, 10, 49, 48, 10], pos := 4 } [] ∧
    ∀ (r : Int) (f1 : FILE) (o : List Nat),
      binary2tga { content := [48, 49, 10, 49, 48, 10], pos := 0 } [] = .ok (r, f1) o →
      f1.content = [48, 49, 10, 49, 48, 10] ∧ binary2tga f1 [] = .ok (r, f1) o :=
  C11_idempotence { content := [48, 49, 10, 49, 48, 10], pos := 0 }
    { content := [48, 49, 10, 49, 48, 10], pos := 4 } [] rfl

/-- C12: when `binary2tga` fails in the width or height pass (a dimension
bound violated or an inconsistent row width), no byte has been written, not
even the header; and a failure of `binary2tga` with one of those errors is a
failure of the height pass. -/
theorem C12_no_output_before_validation (inp : FILE) (e : Error) :
    (width inp = .error e → binary2tga inp [] = .die e []) ∧
    (height inp = .error e → binary2tga inp [] = .die e []) ∧
    (∀ o : List Nat, binary2tga inp [] = .die e o → is_dimension_error e →
      o = [] ∧ height inp = .error e) := by
  refine ⟨fun h => binary2tga_height_error [] (height_error_of_width_error h),
    fun h => binary2tga_height_error [] h, fun o h hk => ?_⟩
  cases hht : height inp with
  | error e1 =>
    rw [binary2tga_height_error [] hht] at h
    simp only [Outcome.die.injEq] at h
    rw [h.1]
    exact ⟨h.2.symm, rfl⟩
  | ok v =>
    obtain ⟨hv, g2⟩ := v
    cases hwd : width inp with
    | error e1 =>
      rw [height_error_of_width_error hwd] at hht
      simp at hht
    | ok u =>
      obtain ⟨w, g1⟩ := u
      rcases binary2tga_after_passes [] hwd hht with ⟨c, o1, hc⟩ | ⟨f3, o1, hc⟩
      · rw [hc] at h
        simp only [Outcome.die.injEq] at h
        rcases hk with hk | hk | ⟨lw, w1, line, hk⟩ <;> rw [hk] at h <;> simp at h
      · rw [hc] at h
        simp at h

/-- Witness of C12 on the inputs "02\n0\n" (second line too short) and a
single line of 65535 characters (width bound). -/
theorem C12_no_output_before_validation_witness :
    height (fopen [48, 50, 10, 48, 10]) = .error (.invalid_line_width 1 2 [48, 10]) ∧
    binary2tga (fopen [48, 50, 10, 48, 10]) [] = .die (.invalid_line_width 1 2 [48, 10]) [] ∧
    width (fopen (List.replicate 65535 OFF_CHAR)) = .error .assert_width ∧
    binary2tga (fopen (List.replicate 65535 OFF_CHAR)) [] = .die .assert_width [] := by
  have hh : height (fopen [48, 50, 10, 48, 10]) =
      .error (.invalid_line_width 1 2 [48, 10]) :=
    height_short_line 2 [([48, 50], 10)] [48] [] (fopen [48, 50, 10, 48, 10])
      (by decide) (by decide) (by decide) (by decide) (by decide) (by decide) (by decide)
  have hw : width (fopen (List.replicate 65535 OFF_CHAR)) = .error .assert_width :=
    width_assert _ (by simp only [fopen, first_line_length_replicate]; exact Nat.le_refl _)
  exact ⟨hh, (C12_no_output_before_validation _ _).2.1 hh, hw,
    (C12_no_output_before_validation _ _).1 hw⟩

/-- C13: when the width and height passes of `binary2tga` complete, neither
assertion of the encode pass fails: the encode loop either dies on an invalid
pixel or ends with its 16-bit line counter equal to the height, and
`binary2tga` either returns 0 or dies on an invalid pixel. -/
theorem C13_passes_agree (inp f1 f2 : FILE) (w h : Nat) (out : List Nat)
    (hwd : width inp = .ok (w, f1)) (hht : height inp = .ok (h, f2)) :
    ((∃ c o, encode_loop w (reset inp) 0 (out ++ header w h) =
        .die (.invalid_pixel_value c) o) ∨
      (∃ f3 o, encode_loop w (reset inp) 0 (out ++ header w h) = .ok (h, f3) o)) ∧
    ((∃ c o, binary2tga inp out = .die (.invalid_pixel_value c) o) ∨
      (∃ f3 o, binary2tga inp out = .ok (0, f3) o)) ∧
    (∀ o : List Nat, binary2tga inp out ≠ .die .assert_line_width o) ∧
    (∀ o : List Nat, binary2tga inp out ≠ .die .assert_lc o) := by
  have h2 := binary2tga_after_passes out hwd hht
  refine ⟨encode_after_passes (out ++ header w h) hwd hht, h2, fun o ho => ?_, fun o ho => ?_⟩
  · rcases h2 with ⟨c, o1, hc⟩ | ⟨f3, o1, hc⟩ <;> rw [hc] at ho <;> simp at ho
  · rcases h2 with ⟨c, o1, hc⟩ | ⟨f3, o1, hc⟩ <;> rw [hc] at ho <;> simp at ho

/-- Witness of C13 on the input "01\n10\n". -/
theorem C13_passes_agree_witness :
    width (fopen [48, 49, 10, 49, 48, 10]) = .ok (2, fopen [48, 49, 10, 49, 48, 10]) ∧
    height (fopen [48, 49, 10, 49, 48, 10]) = .ok (2, fopen [48, 49, 10, 49, 48, 10]) ∧
    (∀ o : List Nat,
      binary2tga (fopen [48, 49, 10, 49, 48, 10]) [] ≠ .die .assert_line_width o) ∧
    (∀ o : List Nat, binary2tga (fopen [48, 49, 10, 49, 48, 10]) [] ≠ .die .assert_lc o) := by
  have hw : width (fopen [48, 49, 10, 49, 48, 10]) = .ok (2, fopen [48, 49, 10, 49, 48, 10]) :=
    width_of_first_line (by decide) (by decide)
  have hh : height (fopen [48, 49, 10, 49, 48, 10]) =
      .ok (2, fopen [48, 49, 10, 49, 48, 10]) :=
    height_chunks 2 [([48, 49], 10), ([49, 48], 10)] (fopen [48, 49, 10, 49, 48, 10])
      (by decide) (by decide) (by decide) (by decide) (by decide)
  have h := C13_passes_agree (fopen [48, 49, 10, 49, 48, 10]) _ _ 2 2 [] hw hh
  exact ⟨hw, hh, h.2.2.1, h.2.2.2⟩

/-- C14 fails on the code: in "01\n0101\n" the first line has length 2 and
the next one length 4, but `height` dies naming the observed width 1, the
width of the last piece "1\n" of the long line; in "0\n000\n" the first line
has length 1 and the next one length 3, and `height` does not fail at all. -/
theorem C14_long_line_misreported :
    (grid_text [[48, 49], [48, 49, 48, 49]] = [48, 49, 10, 48, 49, 48, 49, 10] ∧
      height (fopen [48, 49, 10, 48, 49, 48, 49, 10]) =
        .error (.invalid_line_width 1 2 [49, 10])) ∧
    (grid_text [[48], [48, 48, 48]] = [48, 10, 48, 48, 48, 10] ∧
      height (fopen [48, 10, 48, 48, 48, 10]) = .ok (3, fopen [48, 10, 48, 48, 48, 10])) :=
  ⟨⟨by decide,
    height_short_line 2 [([48, 49], 10), ([48, 49], 48)] [49] []
      (fopen [48, 49, 10, 48, 49, 48, 49, 10])
      (by decide) (by decide) (by decide) (by decide) (by decide) (by decide) (by decide)⟩,
   ⟨by decide,
    height_chunks 1 [([48], 10), ([48], 48), ([48], 10)] (fopen [48, 10, 48, 48, 48, 10])
      (by decide) (by decide) (by decide) (by decide) (by decide)⟩⟩

/-- C15: on every successful return `width` and `height` leave the input
stream at position 0 with its content unchanged, whatever the position was
when they were called. -/
theorem C15_stream_rewound (inp : FILE) :
    (∀ (w : Nat) (f1 : FILE), width inp = .ok (w, f1) →
      f1.pos = 0 ∧ f1.content = inp.content) ∧
    (∀ (h : Nat) (f1 : FILE), height inp = .ok (h, f1) →
      f1.pos = 0 ∧ f1.content = inp.content) := by
  constructor
  · intro w f1 h
    rw [width_stream h]
    exact ⟨rfl, rfl⟩
  · intro h f1 hh
    rw [height_stream hh]
    exact ⟨rfl, rfl⟩

/-- Witness of C15 on the content "01\n10\n" with the stream at position 4
when `width` and `height` are called. -/
theorem C15_stream_rewound_witness :
    width { content := [48, 49, 10, 49, 48, 10], pos := 4 } =
      .ok (2, { content := [48, 49, 10, 49, 48, 10], pos := 0 }) ∧
    height { content := [48, 49, 10, 49, 48, 10], pos := 4 } =
      .ok (2, { content := [48, 49, 10, 49, 48, 10], pos := 0 }) ∧
    ((FILE.mk [48, 49, 10, 49, 48, 10] 0).pos = 0 ∧
      (FILE.mk [48, 49, 10, 49, 48, 10] 0).content = [48, 49, 10, 49, 48, 10]) ∧
    ((FILE.mk [48, 49, 10, 49, 48, 10] 0).pos = 0 ∧
      (FILE.mk [48, 49, 10, 49, 48, 10] 0).content = [48, 49, 10, 49, 48, 10]) := by
  have hw : width { content := [48, 49, 10, 49, 48, 10], pos := 4 } =
      .ok (2, { content := [48, 49, 10, 49, 48, 10], pos := 0 }) :=
    width_of_first_line (by decide) (by decide)
  have hh : height { content := [48, 49, 10, 49, 48, 10], pos := 4 } =
      .ok (2, { content := [48, 49, 10, 49, 48, 10], pos := 0 }) :=
    height_chunks 2 [([48, 49], 10), ([49, 48], 10)] _
      (by decide) (by decide) (by decide) (by decide) (by decide)
  exact ⟨hw, hh,
    (C15_stream_rewound { content := [48, 49, 10, 49, 48, 10], pos := 4 }).1 _ _ hw,
    (C15_stream_rewound { content := [48, 49, 10, 49, 48, 10], pos := 4 }).2 _ _ hh⟩

/-- C16: for every grid of h ≥ 1 rows of '0' and '1' of equal width w,
1 ≤ w ≤ 65534, in which every row but the last ends with LF and the last row
has no terminator, `binary2tga` dies with the invalid-line-width error naming
the observed width w - 1 against the expected width w, and writes no byte. -/
theorem C16_unterminated_last_line (w : Nat) (init : List (List Nat)) (last : List Nat)
    (hv : valid_grid w (init ++ [last])) (hw1 : 1 ≤ w) (hw : w ≤ 65534) :
    binary2tga (fopen (grid_text init ++ last)) [] =
      .die (.invalid_line_width (w - 1) w last) [] :=
  (binary2tga_unterminated w init last hv hw1 (by simp only [UINT16_MAX]; omega)).2

/-- Witness of C16 on the input "01\n10" and on the single line "01". -/
theorem C16_unterminated_last_line_witness :
    valid_grid 2 ([[48, 49]] ++ [[49, 48]]) ∧
    grid_text [[48, 49]] ++ [49, 48] = [48, 49, 10, 49, 48] ∧
    binary2tga (fopen (grid_text [[48, 49]] ++ [49, 48])) [] =
      .die (.invalid_line_width (2 - 1) 2 [49, 48]) [] ∧
    binary2tga (fopen (grid_text [] ++ [48, 49])) [] =
      .die (.invalid_line_width (2 - 1) 2 [48, 49]) [] :=
  ⟨by decide, by decide,
   C16_unterminated_last_line 2 [[48, 49]] [49, 48] (by decide) (by decide) (by decide),
   C16_unterminated_last_line 2 [] [48, 49] (by decide) (by decide) (by decide)⟩

/-- C17: for every valid grid with 1 ≤ w ≤ 65534 and 1 ≤ h ≤ 65534 whose
rows end with one terminator byte each, the first being CR or LF and the later
ones any bytes other than NUL, `binary2tga` succeeds with the same output as
for the grid with LF terminators: the header followed by the records. -/
theorem C17_terminators_not_inspected (w : Nat) (rows : List (List Nat)) (ts : List Nat)
    (hv : valid_grid w rows) (hw1 : 1 ≤ w) (hw : w ≤ 65534)
    (hh1 : 1 ≤ rows.length) (hh : rows.length ≤ 65534)
    (hlen : ts.length = rows.length) (hts : ∀ t ∈ ts, t ≠ 0)
    (hfirst : ∀ t0, ts.head? = some t0 → t0 = LF ∨ t0 = CR) :
    ∃ f1 f2 out, binary2tga (fopen (chunk_text (rows.zip ts))) [] = .ok (0, f1) out ∧
      binary2tga (fopen (grid_text rows)) [] = .ok (0, f2) out ∧
      out = header w rows.length ++ records (grid_symbols rows) := by
  have hne : rows ≠ [] := by
    intro h0
    rw [h0] at hh1
    simp at hh1
  have hwb : w < UINT16_MAX := by simp only [UINT16_MAX]; omega
  have hhb : rows.length < UINT16_MAX := by simp only [UINT16_MAX]; omega
  exact ⟨_, _, _, binary2tga_terminators w rows ts hv hne hwb hhb hlen hts hfirst,
    binary2tga_grid w rows hv hne hwb hhb, rfl⟩

/-- Witness of C17 on the grid 01 / 10 with CR alone after every row, the
input "01\r10\r". -/
theorem C17_terminators_not_inspected_witness :
    valid_grid 2 [[48, 49], [49, 48]] ∧
    chunk_text ([[48, 49], [49, 48]].zip [13, 13]) = [48, 49, 13, 49, 48, 13] ∧
    ∃ f1 f2 out,
      binary2tga (fopen (chunk_text ([[48, 49], [49, 48]].zip [13, 13]))) [] =
        .ok (0, f1) out ∧
      binary2tga (fopen (grid_text [[48, 49], [49, 48]])) [] = .ok (0, f2) out ∧
      out = header 2 2 ++ records (grid_symbols [[48, 49], [49, 48]]) :=
  ⟨by decide, by decide,
   C17_terminators_not_inspected 2 [[48, 49], [49, 48]] [13, 13] (by decide) (by decide)
     (by decide) (by decide) (by decide) (by decide) (by decide) (by decide)⟩

/-- C18: for every input of n bytes, 1 ≤ n ≤ 65534, without NUL byte and
whose first byte is CR or LF, `width` returns 0, `height` counts every byte
as one row, and `binary2tga` succeeds writing exactly the 18 bytes of
`header 0 n`, whatever the other bytes are. -/
theorem C18_zero_width (bytes : List Nat) (hn1 : 1 ≤ bytes.length)
    (hn : bytes.length ≤ 65534) (hnul : 0 ∉ bytes)
    (hfirst : ∀ b, bytes.head? = some b → b = LF ∨ b = CR) :
    width (fopen bytes) = .ok (0, fopen bytes) ∧
    height (fopen bytes) = .ok (bytes.length, fopen bytes) ∧
    binary2tga (fopen bytes) [] =
      .ok (0, { content := bytes, pos := bytes.length }) (header 0 bytes.length) ∧
    (header 0 bytes.length).length = 18 := by
  have hcs := bytes_is_chunk hnul
  have hfl := first_line_length_eol_first hfirst
  have hlen : (bytes.map (fun b => (([] : List Nat), b))).length = bytes.length :=
    List.length_map _ _
  have hhb : (bytes.map (fun b => (([] : List Nat), b))).length < UINT16_MAX := by
    rw [hlen]; simp only [UINT16_MAX]; omega
  refine ⟨width_of_first_line (by decide) hfl, ?_, ?_, rfl⟩
  · have h := height_chunks 0 _ (fopen bytes) (by decide) hhb
      (chunk_text_bytes bytes).symm hcs hfl
    rw [h, hlen]
    rfl
  · have h := binary2tga_chunks 0 _ (fopen bytes) [] (by decide) hhb
      (chunk_text_bytes bytes).symm hcs (by rw [chunk_text_bytes]; exact hfl)
    rw [h, chunk_symbols_bytes, chunk_text_bytes, hlen]
    simp [write_pixels]

/-- Witness of C18 on the three bytes LF, 'x', CR. -/
theorem C18_zero_width_witness :
    (1 ≤ [10, 120, 13].length ∧ [10, 120, 13].length ≤ 65534 ∧ 0 ∉ [10, 120, 13]) ∧
    width (fopen [10, 120, 13]) = .ok (0, fopen [10, 120, 13]) ∧
    height (fopen [10, 120, 13]) = .ok ([10, 120, 13].length, fopen [10, 120, 13]) ∧
    binary2tga (fopen [10, 120, 13]) [] =
      .ok (0, { content := [10, 120, 13], pos := [10, 120, 13].length })
        (header 0 [10, 120, 13].length) ∧
    (header 0 [10, 120, 13].length).length = 18 :=
  ⟨by decide, C18_zero_width [10, 120, 13] (by decide) (by decide) (by decide) (by decide)⟩

end Tga
